import Mathlib

/-!
Verification of the HMM estimation and Viterbi decoding subsystem.

The estimator (src/hmm/construct.py, duplicated in load_hmm of
src/hmm/predictions.py lines 6-63) counts transitions, emissions and state
occurrences over an in-memory corpus of (state-sequence, observation-sequence)
runs and normalizes the counts into a transition matrix A and an emission
matrix B, rows and columns indexed by the sorted lists of distinct labels.
File reading and line parsing are the external loader of spec section 6; the
embedding starts from the parsed corpus.

The decoder (viterbi, src/hmm/predictions.py lines 66-111) is embedded
monadically: every Python dict lookup and list indexing that can raise is an
Except computation, so the embedding fails exactly where the source raises.
Probabilities are modelled as exact rationals.
-/

namespace HMM

/-- Failure modes of the decoder.  The source raises KeyError on a missing
dict key and IndexError on a list index; the miss of the observation-alphabet
lookup at predictions.py line 71 is named per the spec's taxonomy
(UnknownObservationError), as are the empty-sequence and no-candidate cases
(IndexError on dp of an empty sequence, ValueError of max on an empty dict). -/
inductive VErr : Type
  | unknownObservation
  | emptySequence
  | noCandidates
  | keyError
  | indexError
deriving DecidableEq

/-- Error type the spec prescribes for structurally invalid corpora.  The
source never constructs such an error; the type is needed to state the
spec's claim about it. -/
inductive CorpusError : Type
  | mismatchedRun
deriving DecidableEq

/-- Sequential monadic map: a Python for-loop that builds a list and
propagates the first exception. -/
def eachE {α β : Type} (f : α → Except VErr β) : List α → Except VErr (List β)
  | [] => .ok []
  | x :: xs =>
    match f x with
    | .error e => .error e
    | .ok y =>
      match eachE f xs with
      | .error e => .error e
      | .ok ys => .ok (y :: ys)

/-- Sequential monadic fold: a Python for-loop over an accumulator that
propagates the first exception. -/
def foldE {σ α : Type} (f : σ → α → Except VErr σ) : σ → List α → Except VErr σ
  | acc, [] => .ok acc
  | acc, x :: xs =>
    match f acc x with
    | .error e => .error e
    | .ok acc2 => foldE f acc2 xs

/-- Python dict lookup st_idx[k]: KeyError when the key is missing. -/
def kGet (d : List (Int × Nat)) (k : Int) : Except VErr Nat :=
  match List.lookup k d with
  | some v => .ok v
  | none => .error .keyError

/-- Python dict lookup ob_idx[o] at predictions.py line 71; a miss is the
unknown-observation failure. -/
def obGet (d : List (Int × Nat)) (k : Int) : Except VErr Nat :=
  match List.lookup k d with
  | some v => .ok v
  | none => .error .unknownObservation

/-- One time-step of the dp table: Python dict from state label to
(probability, predecessor); modelled as an association list in insertion
order, which is the iteration order of the Python dict. -/
abbrev Dp := List (Int × (ℚ × Option Int))

/-- Python dict lookup dp[t][s]: KeyError when the state is missing. -/
def dpGet (d : Dp) (k : Int) : Except VErr (ℚ × Option Int) :=
  match List.lookup k d with
  | some v => .ok v
  | none => .error .keyError

/-- Python 2-D list indexing m[i][j]: IndexError when out of range. -/
def mget (m : List (List ℚ)) (i j : Nat) : Except VErr ℚ :=
  match m[i]? with
  | none => .error .indexError
  | some row =>
    match row[j]? with
    | none => .error .indexError
    | some v => .ok v

/-- The dict comprehension mapping each label to its position in the list
(enumerate), as built for st_idx and ob_idx in both source files. -/
def stIdxOf (l : List Int) : List (Int × Nat) :=
  l.enum.map (fun p => (p.2, p.1))

/-- The candidate states iterated by the decoder: the states list with the
start sentinel 0 skipped (the continue at predictions.py lines 77, 85, 91). -/
def candOf (states : List Int) : List Int := states.filter (fun s => s != 0)

/-- obs_ids (predictions.py line 71): observation labels resolved to column
indices before any dp work; the first unknown label aborts. -/
def obsIdsOf (ob_idx : List (Int × Nat)) (obs_seq : List Int) : Except VErr (List Nat) :=
  eachE (obGet ob_idx) obs_seq

/-- Body of the initialization loop (predictions.py lines 76-80) for one
candidate state: dp[0][s] = (A[0][s] * B[s][obs_ids[0]], start sentinel). -/
def dpInitBody (A B : List (List ℚ)) (st_idx : List (Int × Nat)) (o0 : Nat)
    (s : Int) : Except VErr (Int × (ℚ × Option Int)) := do
  let prev_i ← kGet st_idx 0
  let curr_i ← kGet st_idx s
  let a ← mget A prev_i curr_i
  let b ← mget B curr_i o0
  pure (s, (a * b, some (0 : Int)))

/-- Initialization of dp for the first observation
(predictions.py lines 76-80). -/
def dpInit (states : List Int) (A B : List (List ℚ)) (st_idx : List (Int × Nat))
    (o0 : Nat) : Except VErr Dp :=
  eachE (dpInitBody A B st_idx o0) (candOf states)

/-- Body of the inner maximization loop (predictions.py lines 90-97): the
candidate predecessor p updates the best pair only on a strictly greater
probability. -/
def innerStep (A B : List (List ℚ)) (st_idx : List (Int × Nat)) (dprev : Dp)
    (curr_i ot : Nat) (acc : ℚ × Option Int) (p : Int) : Except VErr (ℚ × Option Int) := do
  let prev_i ← kGet st_idx p
  let dv ← dpGet dprev p
  let a ← mget A prev_i curr_i
  let b ← mget B curr_i ot
  let prob := dv.1 * a * b
  pure (if prob > acc.1 then (prob, some p) else acc)

/-- Body of one recurrence iteration (predictions.py lines 84-99) for one
candidate state: the inner loop over candidate predecessors starts from
max_prob = -1 and no chosen predecessor. -/
def dpStepBody (states : List Int) (A B : List (List ℚ)) (st_idx : List (Int × Nat))
    (dprev : Dp) (ot : Nat) (s : Int) : Except VErr (Int × (ℚ × Option Int)) := do
  let curr_i ← kGet st_idx s
  let mc ← foldE (innerStep A B st_idx dprev curr_i ot) ((-1 : ℚ), (none : Option Int))
    (candOf states)
  pure (s, mc)

/-- One recurrence step of the dp (predictions.py lines 83-99). -/
def dpStep (states : List Int) (A B : List (List ℚ)) (st_idx : List (Int × Nat))
    (dprev : Dp) (ot : Nat) : Except VErr Dp :=
  eachE (dpStepBody states A B st_idx dprev ot) (candOf states)

/-- The dp tables for time steps 1..T-1, given dp[0]. -/
def dpRest (states : List Int) (A B : List (List ℚ)) (st_idx : List (Int × Nat)) :
    Dp → List Nat → Except VErr (List Dp)
  | _, [] => .ok []
  | dprev, ot :: rest => do
    let d ← dpStep states A B st_idx dprev ot
    let ds ← dpRest states A B st_idx d rest
    pure (d :: ds)

/-- All dp tables, one per observation. -/
def dpAll (states : List Int) (A B : List (List ℚ)) (st_idx : List (Int × Nat)) :
    List Nat → Except VErr (List Dp)
  | [] => .ok []
  | o0 :: rest => do
    let d0 ← dpInit states A B st_idx o0
    let ds ← dpRest states A B st_idx d0 rest
    pure (d0 :: ds)

/-- Python max over the keys of the last dp dict (predictions.py line 103):
iterate in insertion order, keep the first key whose value is strictly
greater than the running best; ValueError (no candidate states) on an empty
dict. -/
def pyMaxKey : Dp → Except VErr Int
  | [] => .error .noCandidates
  | e :: rest => .ok ((rest.foldl (fun b kv => if kv.2.1 > b.2.1 then kv else b) e).1)

/-- Backtracking loop (predictions.py lines 105-110): for t = T-1 down to 1,
prepend the stored predecessor of the most recent path entry.  The Python
list is appended to and reversed at the end; keeping the most recent entry
at the head yields the reversed (chronological) list directly. -/
def backtrace (dps : List Dp) : Nat → List (Option Int) → Except VErr (List (Option Int))
  | 0, path => .ok path
  | t+1, path =>
    match path with
    | [] => .error .indexError
    | cur :: _ =>
      match cur with
      | none => .error .keyError
      | some s =>
        match dps[t+1]? with
        | none => .error .indexError
        | some d =>
          match dpGet d s with
          | .error e => .error e
          | .ok v => backtrace dps t (v.2 :: path)

/-- The decoder (predictions.py lines 66-111).  The parameter obs (the
observation alphabet) is received but, as in the source, unused in the body;
ob_idx carries the alphabet's index map. -/
def viterbi (obs_seq states obs : List Int) (A B : List (List ℚ))
    (st_idx ob_idx : List (Int × Nat)) : Except VErr (List (Option Int)) :=
  match obsIdsOf ob_idx obs_seq with
  | .error e => .error e
  | .ok obs_ids =>
    match dpAll states A B st_idx obs_ids with
    | .error e => .error e
    | .ok dps =>
      match dps.getLast? with
      | none => .error .emptySequence
      | some dlast =>
        match pyMaxKey dlast with
        | .error e => .error e
        | .ok final_state => backtrace dps (obs_seq.length - 1) [some final_state]

/-- An in-memory corpus: the runs parsed from the dataset file, each a pair
of a state sequence and an observation sequence. -/
abbrev Corpus := List (List Int × List Int)

/-- The consecutive state pairs counted by the transition loop
(construct.py lines 35-38): for each run, pairs of adjacent states. -/
def transPairs (c : Corpus) : List (Int × Int) :=
  (c.map (fun r => r.1.zip r.1.tail)).flatten

/-- The aligned (state, observation) pairs counted by the emission loop
(construct.py lines 41-43).  Python zip silently truncates to the shorter
of the two sequences. -/
def emissPairs (c : Corpus) : List (Int × Int) :=
  (c.map (fun r => r.1.zip r.2)).flatten

/-- transition_counts[s][t] (construct.py line 38). -/
def transition_counts (c : Corpus) (s t : Int) : Nat := (transPairs c).count (s, t)

/-- emission_counts[s][o] (construct.py line 42). -/
def emission_counts (c : Corpus) (s o : Int) : Nat := (emissPairs c).count (s, o)

/-- state_appearance_counts[s] (construct.py line 43): incremented once per
zipped (state, observation) pair whose state is s. -/
def state_appearance_counts (c : Corpus) (s : Int) : Nat :=
  (emissPairs c).countP (fun p => p.1 == s)

/-- Python sorted(set(l)): the sorted list of the distinct labels. -/
def sortedDistinct (l : List Int) : List Int :=
  l.dedup.insertionSort (fun a b => a ≤ b)

/-- Every state label occurring in any run (construct.py line 46); the
source keeps a set, here the list whose distinct elements form that set. -/
def all_states (c : Corpus) : List Int := (c.map Prod.fst).flatten

/-- Every observation label occurring in any run (construct.py line 47). -/
def all_observables (c : Corpus) : List Int := (c.map Prod.snd).flatten

/-- sorted_states (construct.py line 50). -/
def sorted_states (c : Corpus) : List Int := sortedDistinct (all_states c)

/-- sorted_observables (construct.py line 51). -/
def sorted_observables (c : Corpus) : List Int := sortedDistinct (all_observables c)

/-- total_outgoing for a from-state (construct.py line 66): the sum of its
transition counts over the sorted state list. -/
def total_outgoing (c : Corpus) (s : Int) : Nat :=
  ((sorted_states c).map (fun t => transition_counts c s t)).sum

/-- Row of the transition matrix for from-state s (construct.py lines 65-73):
counts normalized by total_outgoing, or an all-zero row when the state has
no outgoing transition. -/
def trans_row (c : Corpus) (s : Int) : List ℚ :=
  (sorted_states c).map (fun t =>
    if 0 < total_outgoing c s then (transition_counts c s t : ℚ) / (total_outgoing c s : ℚ)
    else 0)

/-- trans_matrix (construct.py lines 61, 64-73): one row per state in sorted
order. -/
def trans_matrix (c : Corpus) : List (List ℚ) := (sorted_states c).map (trans_row c)

/-- Row of the emission matrix for state s (construct.py lines 76-84). -/
def emiss_row (c : Corpus) (s : Int) : List ℚ :=
  (sorted_observables c).map (fun o =>
    if 0 < state_appearance_counts c s then
      (emission_counts c s o : ℚ) / (state_appearance_counts c s : ℚ)
    else 0)

/-- emiss_matrix (construct.py lines 62, 76-84). -/
def emiss_matrix (c : Corpus) : List (List ℚ) := (sorted_states c).map (emiss_row c)

/-- load_hmm (predictions.py lines 6-63), the same computation as
construct.py, bundled as the model tuple
(states, obs, A, B, st_idx, ob_idx). -/
def load_hmm (c : Corpus) :
    List Int × List Int × List (List ℚ) × List (List ℚ) × List (Int × Nat) × List (Int × Nat) :=
  (sorted_states c, sorted_observables c, trans_matrix c, emiss_matrix c,
    stIdxOf (sorted_states c), stIdxOf (sorted_observables c))

/-- Estimation seen through the error channel the spec prescribes: the
source performs no structural validation of the corpus, so the embedding
always returns the complete result. -/
def estimateE (c : Corpus) :
    Except CorpusError
      (List Int × List Int × List (List ℚ) × List (List ℚ) × List (Int × Nat) × List (Int × Nat)) :=
  .ok (load_hmm c)

/-- One iteration of the test loop of the prediction driver
(predictions.py lines 134-141): a test case is the declared length read at
line 135 paired with the labels parsed at line 137; the declared length is
read and discarded, only the labels are decoded. -/
def run_test (states obs : List Int) (A B : List (List ℚ))
    (st_idx ob_idx : List (Int × Nat)) (test : Int × List Int) :
    Except VErr (List (Option Int)) :=
  viterbi test.2 states obs A B st_idx ob_idx

/-- The whole test loop: one decode per test case, in input order. -/
def run_tests (states obs : List Int) (A B : List (List ℚ))
    (st_idx ob_idx : List (Int × Nat)) (tests : List (Int × List Int)) :
    List (Except VErr (List (Option Int))) :=
  tests.map (run_test states obs A B st_idx ob_idx)

/-- Matrix entry access for the spec-side dynamic program (the spec assumes
a well-formed model, so out-of-range access is irrelevant and defaulted). -/
def ent (m : List (List ℚ)) (i j : Nat) : ℚ := (m.getD i []).getD j 0

/-- A[p][s] through the state index map, as the spec writes it. -/
def aEnt (states : List Int) (A : List (List ℚ)) (p s : Int) : ℚ :=
  ent A (states.indexOf p) (states.indexOf s)

/-- B[s][obsIndex(o)] through the index maps, as the spec writes it. -/
def bEnt (states obsL : List Int) (B : List (List ℚ)) (s : Int) (o : Int) : ℚ :=
  ent B (states.indexOf s) (obsL.indexOf o)

/-- Maximum of a nonempty collection given as head and tail. -/
def listMaxQ (x : ℚ) (xs : List ℚ) : ℚ := xs.foldl max x

/-- First element achieving the maximum of f over a nonempty list given as
head and tail: a later element replaces the best only when strictly
greater, so ties keep the earliest. -/
def firstMax {α : Type} (f : α → ℚ) (x : α) (xs : List α) : α :=
  xs.foldl (fun b y => if f y > f b then y else b) x

/-- Modelled from the spec, section 4.2: the score table of the dynamic
program.  score[0][s] = A[0][s] * B[s][obsIndex(obsSeq[0])]; score[t][s] =
(max over candidates p of score[t-1][p] * A[p][s]) * B[s][obsIndex(obsSeq[t])],
with the emission factor outside the maximum as the spec parenthesizes it. -/
def specScore (states obsL : List Int) (A B : List (List ℚ)) (obsSeq : List Int) :
    Nat → Int → ℚ
  | 0 => fun s => aEnt states A 0 s * bEnt states obsL B s (obsSeq.getD 0 0)
  | t+1 => fun s =>
    (match candOf states with
     | [] => 0
     | c :: cs =>
       listMaxQ (specScore states obsL A B obsSeq t c * aEnt states A c s)
         (cs.map (fun p => specScore states obsL A B obsSeq t p * aEnt states A p s)))
      * bEnt states obsL B s (obsSeq.getD (t+1) 0)

/-- Modelled from the spec, section 4.2: backptr[t][s] for t >= 1 is the
first candidate p, in the iteration order of the candidate list, achieving
the maximum of score[t-1][p] * A[p][s] (the emission factor stays outside
the maximization, following the spec's parenthesization). -/
def specBp (states obsL : List Int) (A B : List (List ℚ)) (obsSeq : List Int)
    (t : Nat) (s : Int) : Int :=
  match candOf states with
  | [] => 0
  | c :: cs =>
    firstMax (fun p => specScore states obsL A B obsSeq (t-1) p * aEnt states A p s) c cs

/-- The backpointer the source actually computes at t >= 1: the first
candidate p maximizing score[t-1][p] * A[p][s] * B[s][obsIndex(obsSeq[t])],
with the emission factor inside the maximand (predictions.py line 94).
It agrees with specBp whenever that emission entry is positive. -/
def specBpEm (states obsL : List Int) (A B : List (List ℚ)) (obsSeq : List Int)
    (t : Nat) (s : Int) : Int :=
  match candOf states with
  | [] => 0
  | c :: cs =>
    firstMax (fun p => specScore states obsL A B obsSeq (t-1) p * aEnt states A p s *
      bEnt states obsL B s (obsSeq.getD t 0)) c cs

/-- Modelled from the spec, section 4.2: the path of length T obtained by
following a backpointer function from the final state at t = T-1 down to
t = 0, in chronological order. -/
def specBack (bp : Nat → Int → Int) : Nat → Int → List Int
  | 0, s => [s]
  | t+1, s => specBack bp t (bp (t+1) s) ++ [s]

/-- Modelled from the spec, section 4.2: the decoded path for a given
backpointer policy; none when the observation sequence is empty or there is
no candidate state. -/
def specDecode (states obsL : List Int) (A B : List (List ℚ)) (obsSeq : List Int)
    (bp : Nat → Int → Int) : Option (List Int) :=
  match obsSeq.length, candOf states with
  | 0, _ => none
  | _+1, [] => none
  | _+1, c :: cs =>
    some (specBack bp (obsSeq.length - 1)
      (firstMax (specScore states obsL A B obsSeq (obsSeq.length - 1)) c cs))

/-- Modelled from the spec, section 4.2: the full dynamic program exactly as
the spec states it, with the spec's backpointer. -/
def specViterbi (states obsL : List Int) (A B : List (List ℚ)) (obsSeq : List Int) :
    Option (List Int) :=
  specDecode states obsL A B obsSeq (specBp states obsL A B obsSeq)

/-- The spec's dynamic program with the backpointer amended to include the
emission factor in the maximand, matching the source. -/
def specViterbiEm (states obsL : List Int) (A B : List (List ℚ)) (obsSeq : List Int) :
    Option (List Int) :=
  specDecode states obsL A B obsSeq (specBpEm states obsL A B obsSeq)

/-- The evaluated dp table of the decoder at time t, expressed through the
spec-side score and the source's backpointer: the bridge between the
monadic translation and the dynamic program. -/
def dpTable (states obsL : List Int) (A B : List (List ℚ)) (obsSeq : List Int) : Nat → Dp
  | 0 => (candOf states).map (fun s =>
      (s, (specScore states obsL A B obsSeq 0 s, some (0 : Int))))
  | t+1 => (candOf states).map (fun s =>
      (s, (specScore states obsL A B obsSeq (t+1) s,
           some (specBpEm states obsL A B obsSeq (t+1) s))))

/-- Well-formedness of a model tuple, the invariants the spec's data model
gives every HMMModel: sorted distinct label lists, matrix dimensions, and
non-negative entries. -/
abbrev WFModel (states obsL : List Int) (A B : List (List ℚ)) : Prop :=
  List.Sorted (fun a b => a < b) states ∧ List.Sorted (fun a b => a < b) obsL ∧
  A.length = states.length ∧ (∀ row ∈ A, row.length = states.length) ∧
  B.length = states.length ∧ (∀ row ∈ B, row.length = obsL.length) ∧
  (∀ row ∈ A, ∀ x ∈ row, 0 ≤ x) ∧ (∀ row ∈ B, ∀ x ∈ row, 0 ≤ x)

/-- The pure evaluation of the decoder's inner maximization loop once every
lookup succeeds: fold over the candidates from max_prob = -1 and no chosen
predecessor, replacing only on a strictly greater value
(predictions.py lines 88-97). -/
def codeFold {α : Type} (f : α → ℚ) (l : List α) : ℚ × Option α :=
  l.foldl (fun acc p => if f p > acc.1 then (f p, some p) else acc) (-1, none)

/-! Concrete instances used to exercise the theorems. -/

/-- The model of the spec's section 8 decoding example, with the sentinel
row for state 0 prepended as the source expects. -/
def exStates : List Int := [0, 1, 2]

/-- Observation alphabet of the section 8 decoding example. -/
def exObs : List Int := [5, 6]

/-- Transition matrix of the section 8 decoding example. -/
def exA : List (List ℚ) := [[0, 6/10, 4/10], [0, 7/10, 3/10], [0, 4/10, 6/10]]

/-- Emission matrix of the section 8 decoding example. -/
def exB : List (List ℚ) := [[0, 0], [9/10, 1/10], [2/10, 8/10]]

/-- A model exhibiting the divergence between the source's backpointer and
the spec's: observation 6 has emission probability 0 in every state. -/
def cexStates : List Int := [0, 1, 2]

/-- Observation alphabet of the divergence model. -/
def cexObs : List Int := [5, 6]

/-- Transition weights of the divergence model (non-negative, as the data
model requires; rows need not sum to 1). -/
def cexA : List (List ℚ) := [[0, 1, 1], [0, 1, 4], [0, 9, 0]]

/-- Emission weights of the divergence model: the column of observation 6
is all zero. -/
def cexB : List (List ℚ) := [[0, 0], [1, 0], [1, 0]]

/-- Observation sequence of the divergence example. -/
def cexSeq : List Int := [5, 6]

/-- A corpus with one run whose state and observation sequences have
mismatched lengths. -/
def badCorpus : Corpus := [([1, 2], [5])]

/-- A two-run corpus. -/
def permCorpusA : Corpus := [([1, 1, 2], [5, 5, 6]), ([2], [6])]

/-- The same two runs in the other order. -/
def permCorpusB : Corpus := [([2], [6]), ([1, 1, 2], [5, 5, 6])]

/-- A dp table with a tie between its two entries. -/
def tieDp : Dp := [(1, (3, none)), (2, (3, some 1))]

/-! Reduction lemmas for the Except monad operations the embedding uses. -/

@[simp] theorem exc_pure {ε α : Type} (a : α) : (pure a : Except ε α) = .ok a := rfl

@[simp] theorem exc_bind_ok {ε α β : Type} (a : α) (f : α → Except ε β) :
    ((Except.ok a : Except ε α) >>= f) = f a := rfl

@[simp] theorem exc_bind_err {ε α β : Type} (e : ε) (f : α → Except ε β) :
    ((Except.error e : Except ε α) >>= f) = .error e := rfl

@[simp] theorem exc_map_ok {ε α β : Type} (f : α → β) (a : α) :
    (f <$> (Except.ok a : Except ε α)) = .ok (f a) := rfl

@[simp] theorem exc_map_err {ε α β : Type} (f : α → β) (e : ε) :
    (f <$> (Except.error e : Except ε α)) = .error e := rfl

/-! Structural lemmas about the loop combinators. -/

theorem eachE_nil_ok {α β : Type} {f : α → Except VErr β} : eachE f [] = .ok [] := rfl

theorem eachE_cons_ok {α β : Type} {f : α → Except VErr β} {x : α} {xs : List α}
    {r : List β} :
    eachE f (x :: xs) = .ok r ↔ ∃ y ys, f x = .ok y ∧ eachE f xs = .ok ys ∧ r = y :: ys := by
  cases hfx : f x with
  | error e => simp [eachE, hfx]
  | ok y =>
    cases hxs : eachE f xs with
    | error e => simp [eachE, hfx, hxs]
    | ok ys =>
      simp only [eachE, hfx, hxs]
      constructor
      · intro h
        cases h
        exact ⟨y, ys, rfl, rfl, rfl⟩
      · rintro ⟨y', ys', hy, hys, hr⟩
        cases hy
        cases hys
        simp [hr]

theorem eachE_ok_length {α β : Type} {f : α → Except VErr β} :
    ∀ {l : List α} {r : List β}, eachE f l = .ok r → r.length = l.length := by
  intro l
  induction l with
  | nil =>
    intro r h
    cases h
    rfl
  | cons x xs ih =>
    intro r h
    rcases eachE_cons_ok.mp h with ⟨y, ys, _, hys, hr⟩
    subst hr
    simp [ih hys]

theorem eachE_ok_map {α β : Type} {f : α → Except VErr β} {g : α → β} :
    ∀ {l : List α}, (∀ x ∈ l, f x = .ok (g x)) → eachE f l = .ok (l.map g) := by
  intro l
  induction l with
  | nil => intro _; rfl
  | cons x xs ih =>
    intro h
    exact eachE_cons_ok.mpr ⟨g x, xs.map g, h x (by simp),
      ih (fun a ha => h a (by simp [ha])), rfl⟩

theorem eachE_ok_fst {α β : Type} {f : α → Except VErr (α × β)}
    (hshape : ∀ x v, f x = .ok v → v.1 = x) :
    ∀ {l : List α} {r : List (α × β)}, eachE f l = .ok r → r.map Prod.fst = l := by
  intro l
  induction l with
  | nil =>
    intro r h
    cases h
    rfl
  | cons x xs ih =>
    intro r h
    rcases eachE_cons_ok.mp h with ⟨y, ys, hy, hys, hr⟩
    subst hr
    simp [hshape x y hy, ih hys]

theorem foldE_nil_ok {σ α : Type} {f : σ → α → Except VErr σ} {a : σ} :
    foldE f a [] = .ok a := rfl

theorem foldE_cons_ok {σ α : Type} {f : σ → α → Except VErr σ} {a : σ} {x : α}
    {xs : List α} {r : σ} :
    foldE f a (x :: xs) = .ok r ↔ ∃ b, f a x = .ok b ∧ foldE f b xs = .ok r := by
  cases hfx : f a x with
  | error e => simp [foldE, hfx]
  | ok b => simp [foldE, hfx]

theorem foldE_ok_foldl {σ α : Type} {f : σ → α → Except VErr σ} {g : σ → α → σ} :
    ∀ {l : List α} {a : σ}, (∀ acc x, x ∈ l → f acc x = .ok (g acc x)) →
      foldE f a l = .ok (l.foldl g a) := by
  intro l
  induction l with
  | nil => intro a _; rfl
  | cons x xs ih =>
    intro a h
    exact foldE_cons_ok.mpr ⟨g a x, h a x (by simp),
      ih (fun acc y hy => h acc y (by simp [hy]))⟩

theorem foldE_ok_inv {σ α : Type} {f : σ → α → Except VErr σ} {P : σ → Prop} :
    ∀ {l : List α} {a r : σ}, P a →
      (∀ acc x, x ∈ l → P acc → ∀ v, f acc x = .ok v → P v) →
      foldE f a l = .ok r → P r := by
  intro l
  induction l with
  | nil =>
    intro a r ha _ h
    cases h
    exact ha
  | cons x xs ih =>
    intro a r ha hstep h
    rcases foldE_cons_ok.mp h with ⟨b, hb, hrest⟩
    exact ih (hstep a x (by simp) ha b hb)
      (fun acc y hy => hstep acc y (by simp [hy])) hrest

/-! Lookup lemmas. -/

theorem lookup_mem {β : Type} {k : Int} {v : β} :
    ∀ {d : List (Int × β)}, List.lookup k d = some v → (k, v) ∈ d := by
  intro d
  induction d with
  | nil => intro h; cases h
  | cons e es ih =>
    intro h
    rw [show e = (e.1, e.2) from rfl, List.lookup_cons] at h
    by_cases hk : k = e.1
    · subst hk
      simp at h
      exact List.mem_cons.mpr (Or.inl (by rw [← h]))
    · rw [show ((k == e.1) = false) from beq_eq_false_iff_ne.mpr hk] at h
      simp at h
      exact List.mem_cons_of_mem _ (ih h)

theorem lookup_enumFrom_swap_none {s : Int} :
    ∀ {l : List Int} (n : Nat), s ∉ l →
      List.lookup s ((List.enumFrom n l).map (fun p => (p.2, p.1))) = none := by
  intro l
  induction l with
  | nil => intro n _; rfl
  | cons x xs ih =>
    intro n hs
    have hne : s ≠ x := fun h => hs (h ▸ List.mem_cons_self x xs)
    rw [List.enumFrom_cons]
    simp only [List.map_cons, List.lookup_cons,
      show ((s == x) = false) from beq_eq_false_iff_ne.mpr hne]
    exact ih (n + 1) (fun h => hs (List.mem_cons_of_mem x h))

theorem lookup_enumFrom_swap_some {s : Int} :
    ∀ {l : List Int} (n : Nat), s ∈ l →
      List.lookup s ((List.enumFrom n l).map (fun p => (p.2, p.1)))
        = some (n + l.indexOf s) := by
  intro l
  induction l with
  | nil => intro n h; cases h
  | cons x xs ih =>
    intro n hs
    rw [List.enumFrom_cons]
    by_cases hx : s = x
    · subst hx
      simp [List.lookup_cons, List.indexOf_cons_self]
    · have hmem : s ∈ xs := by
        rcases List.mem_cons.mp hs with h | h
        · exact absurd h hx
        · exact h
      simp only [List.map_cons, List.lookup_cons,
        show ((s == x) = false) from beq_eq_false_iff_ne.mpr hx]
      rw [ih (n + 1) hmem, List.indexOf_cons,
        show ((x == s) = false) from beq_eq_false_iff_ne.mpr (Ne.symm hx)]
      simp
      omega

theorem lookup_stIdxOf_some {s : Int} {l : List Int} (h : s ∈ l) :
    List.lookup s (stIdxOf l) = some (l.indexOf s) := by
  rw [stIdxOf, List.enum_eq_enumFrom, lookup_enumFrom_swap_some 0 h, Nat.zero_add]

theorem lookup_stIdxOf_none {s : Int} {l : List Int} (h : s ∉ l) :
    List.lookup s (stIdxOf l) = none := by
  rw [stIdxOf, List.enum_eq_enumFrom, lookup_enumFrom_swap_none 0 h]

theorem lookup_stIdxOf_mem {s : Int} {l : List Int} {v : Nat}
    (h : List.lookup s (stIdxOf l) = some v) : s ∈ l := by
  by_contra hs
  rw [lookup_stIdxOf_none hs] at h
  cases h

/-! Length of a successful decode. -/

theorem dpRest_cons_ok {states : List Int} {A B : List (List ℚ)}
    {st_idx : List (Int × Nat)} {dprev : Dp} {ot : Nat} {rest : List Nat}
    {ds : List Dp} :
    dpRest states A B st_idx dprev (ot :: rest) = .ok ds ↔
      ∃ d ds', dpStep states A B st_idx dprev ot = .ok d ∧
        dpRest states A B st_idx d rest = .ok ds' ∧ ds = d :: ds' := by
  cases hstep : dpStep states A B st_idx dprev ot with
  | error e => simp [dpRest, hstep]
  | ok d =>
    cases hrest : dpRest states A B st_idx d rest with
    | error e => simp [dpRest, hstep, hrest]
    | ok ds' =>
      simp only [dpRest, hstep, hrest, exc_bind_ok, exc_pure]
      constructor
      · intro h
        cases h
        exact ⟨d, ds', rfl, hrest, rfl⟩
      · rintro ⟨d1, ds1, h1, h2, h3⟩
        cases h1
        rw [hrest] at h2
        cases h2
        simp [h3]

theorem dpAll_cons_ok {states : List Int} {A B : List (List ℚ)}
    {st_idx : List (Int × Nat)} {o0 : Nat} {rest : List Nat} {dps : List Dp} :
    dpAll states A B st_idx (o0 :: rest) = .ok dps ↔
      ∃ d0 ds, dpInit states A B st_idx o0 = .ok d0 ∧
        dpRest states A B st_idx d0 rest = .ok ds ∧ dps = d0 :: ds := by
  cases hinit : dpInit states A B st_idx o0 with
  | error e => simp [dpAll, hinit]
  | ok d0 =>
    cases hrest : dpRest states A B st_idx d0 rest with
    | error e => simp [dpAll, hinit, hrest]
    | ok ds =>
      simp only [dpAll, hinit, hrest, exc_bind_ok, exc_pure]
      constructor
      · intro h
        cases h
        exact ⟨d0, ds, rfl, hrest, rfl⟩
      · rintro ⟨d1, ds1, h1, h2, h3⟩
        cases h1
        rw [hrest] at h2
        cases h2
        simp [h3]

theorem dpRest_ok_length {states : List Int} {A B : List (List ℚ)}
    {st_idx : List (Int × Nat)} :
    ∀ {rest : List Nat} {dprev : Dp} {ds : List Dp},
      dpRest states A B st_idx dprev rest = .ok ds → ds.length = rest.length := by
  intro rest
  induction rest with
  | nil =>
    intro dprev ds h
    cases h
    rfl
  | cons ot rest ih =>
    intro dprev ds h
    rcases dpRest_cons_ok.mp h with ⟨d, ds', _, hrest, hds⟩
    subst hds
    simp [ih hrest]

theorem dpAll_ok_length {states : List Int} {A B : List (List ℚ)}
    {st_idx : List (Int × Nat)} :
    ∀ {obs_ids : List Nat} {dps : List Dp},
      dpAll states A B st_idx obs_ids = .ok dps → dps.length = obs_ids.length := by
  intro obs_ids dps h
  cases obs_ids with
  | nil => cases h; rfl
  | cons o0 rest =>
    rcases dpAll_cons_ok.mp h with ⟨d0, ds, _, hrest, hdps⟩
    subst hdps
    simp [dpRest_ok_length hrest]

theorem backtrace_ok_length {dps : List Dp} :
    ∀ {t : Nat} {path res : List (Option Int)},
      backtrace dps t path = .ok res → res.length = t + path.length := by
  intro t
  induction t with
  | zero =>
    intro path res h
    cases h
    simp
  | succ t ih =>
    intro path res h
    cases path with
    | nil => simp [backtrace] at h
    | cons cur rest =>
      cases cur with
      | none => simp [backtrace] at h
      | some s =>
        simp only [backtrace] at h
        cases hd : dps[t+1]? with
        | none => simp [hd] at h
        | some d =>
          simp only [hd] at h
          cases hv : dpGet d s with
          | error e => simp [hv] at h
          | ok v =>
            simp only [hv] at h
            have := ih h
            simp at this
            simp [this]
            omega

theorem viterbi_ok_length {obs_seq states obs : List Int} {A B : List (List ℚ)}
    {st_idx ob_idx : List (Int × Nat)} {path : List (Option Int)}
    (h : viterbi obs_seq states obs A B st_idx ob_idx = .ok path) :
    path.length = obs_seq.length := by
  cases hids : obsIdsOf ob_idx obs_seq with
  | error e => simp [viterbi, hids] at h
  | ok obs_ids =>
    simp only [viterbi, hids] at h
    cases hdps : dpAll states A B st_idx obs_ids with
    | error e => simp [hdps] at h
    | ok dps =>
      simp only [hdps] at h
      cases hlast : dps.getLast? with
      | none => simp [hlast] at h
      | some dlast =>
        simp only [hlast] at h
        cases hmax : pyMaxKey dlast with
        | error e => simp [hmax] at h
        | ok final_state =>
          simp only [hmax] at h
          have hlen := backtrace_ok_length h
          have hne : dps ≠ [] := by
            intro hnil
            rw [hnil] at hlast
            cases hlast
          have h1 : dps.length = obs_ids.length := dpAll_ok_length hdps
          have h2 : obs_ids.length = obs_seq.length := eachE_ok_length hids
          have h3 : 0 < dps.length := List.length_pos.mpr hne
          simp at hlen
          omega

theorem viterbi_ok_elim {obs_seq states obs : List Int} {A B : List (List ℚ)}
    {st_idx ob_idx : List (Int × Nat)} {path : List (Option Int)}
    (h : viterbi obs_seq states obs A B st_idx ob_idx = .ok path) :
    ∃ obs_ids dps dlast final_state,
      obsIdsOf ob_idx obs_seq = .ok obs_ids ∧
      dpAll states A B st_idx obs_ids = .ok dps ∧
      dps.getLast? = some dlast ∧
      pyMaxKey dlast = .ok final_state ∧
      backtrace dps (obs_seq.length - 1) [some final_state] = .ok path := by
  cases hids : obsIdsOf ob_idx obs_seq with
  | error e => simp [viterbi, hids] at h
  | ok obs_ids =>
    simp only [viterbi, hids] at h
    cases hdps : dpAll states A B st_idx obs_ids with
    | error e => simp [hdps] at h
    | ok dps =>
      simp only [hdps] at h
      cases hlast : dps.getLast? with
      | none => simp [hlast] at h
      | some dlast =>
        simp only [hlast] at h
        cases hmax : pyMaxKey dlast with
        | error e => simp [hmax] at h
        | ok final_state =>
          simp only [hmax] at h
          exact ⟨obs_ids, dps, dlast, final_state, rfl, hdps, hlast, hmax, h⟩

/-! Unknown observations abort the decode before any dp work. -/

theorem obsIdsOf_unknown {obsL : List Int} :
    ∀ {obs_seq : List Int}, (∃ o ∈ obs_seq, o ∉ obsL) →
      obsIdsOf (stIdxOf obsL) obs_seq = .error .unknownObservation := by
  intro obs_seq
  induction obs_seq with
  | nil =>
    rintro ⟨o, ho, _⟩
    cases ho
  | cons x xs ih =>
    rintro ⟨o, ho, hno⟩
    cases hx : List.lookup x (stIdxOf obsL) with
    | none => simp [obsIdsOf, eachE, obGet, hx]
    | some i =>
      have hxmem : x ∈ obsL := lookup_stIdxOf_mem hx
      have : ∃ o ∈ xs, o ∉ obsL := by
        rcases List.mem_cons.mp ho with h | h
        · exact absurd (h ▸ hxmem) hno
        · exact ⟨o, h, hno⟩
      have hrest := ih this
      simp only [obsIdsOf] at hrest
      simp [obsIdsOf, eachE, obGet, hx, hrest]

/-! The sentinel 0 cannot appear in a decoded path. -/

theorem eachE_ok_mem {α β : Type} {f : α → Except VErr β} :
    ∀ {l : List α} {r : List β}, eachE f l = .ok r → ∀ y ∈ r, ∃ x ∈ l, f x = .ok y := by
  intro l
  induction l with
  | nil =>
    intro r h y hy
    cases h
    cases hy
  | cons x xs ih =>
    intro r h y hy
    rcases eachE_cons_ok.mp h with ⟨z, zs, hz, hzs, hr⟩
    subst hr
    rcases List.mem_cons.mp hy with h1 | h1
    · exact ⟨x, by simp, h1 ▸ hz⟩
    · rcases ih hzs y h1 with ⟨x', hx', hfx'⟩
      exact ⟨x', by simp [hx'], hfx'⟩

theorem dpInitBody_ok_fst {A B : List (List ℚ)} {st_idx : List (Int × Nat)} {o0 : Nat}
    {s : Int} {v : Int × (ℚ × Option Int)} (h : dpInitBody A B st_idx o0 s = .ok v) :
    v.1 = s := by
  unfold dpInitBody at h
  cases h0 : kGet st_idx 0 with
  | error e => simp [h0] at h
  | ok pi =>
    simp only [h0, exc_bind_ok] at h
    cases h1 : kGet st_idx s with
    | error e => simp [h1] at h
    | ok ci =>
      simp only [h1, exc_bind_ok] at h
      cases h2 : mget A pi ci with
      | error e => simp [h2] at h
      | ok a =>
        simp only [h2, exc_bind_ok] at h
        cases h3 : mget B ci o0 with
        | error e => simp [h3] at h
        | ok b =>
          simp only [h3, exc_bind_ok, exc_map_ok, exc_pure] at h
          cases h
          rfl

theorem innerStep_ok_cases {A B : List (List ℚ)} {st_idx : List (Int × Nat)}
    {dprev : Dp} {ci ot : Nat} {acc : ℚ × Option Int} {p : Int} {w : ℚ × Option Int}
    (h : innerStep A B st_idx dprev ci ot acc p = .ok w) :
    w = acc ∨ w.2 = some p := by
  unfold innerStep at h
  cases h0 : kGet st_idx p with
  | error e => simp [h0] at h
  | ok pi =>
    simp only [h0, exc_bind_ok] at h
    cases h1 : dpGet dprev p with
    | error e => simp [h1] at h
    | ok dv =>
      simp only [h1, exc_bind_ok] at h
      cases h2 : mget A pi ci with
      | error e => simp [h2] at h
      | ok a =>
        simp only [h2, exc_bind_ok] at h
        cases h3 : mget B ci ot with
        | error e => simp [h3] at h
        | ok b =>
          simp only [h3, exc_bind_ok, exc_map_ok, exc_pure] at h
          cases h
          by_cases hc : dv.1 * a * b > acc.1
          · right
            simp [hc]
          · left
            simp [hc]

theorem dpStepBody_ok_fst {states : List Int} {A B : List (List ℚ)}
    {st_idx : List (Int × Nat)} {dprev : Dp} {ot : Nat} {s : Int}
    {v : Int × (ℚ × Option Int)} (h : dpStepBody states A B st_idx dprev ot s = .ok v) :
    v.1 = s := by
  unfold dpStepBody at h
  cases h0 : kGet st_idx s with
  | error e => simp [h0] at h
  | ok ci =>
    simp only [h0, exc_bind_ok] at h
    cases h1 : foldE (innerStep A B st_idx dprev ci ot)
        ((-1 : ℚ), (none : Option Int)) (candOf states) with
    | error e => simp [h1] at h
    | ok mc =>
      simp only [h1, exc_bind_ok, exc_map_ok, exc_pure] at h
      cases h
      rfl

theorem dpStepBody_ok_prev {states : List Int} {A B : List (List ℚ)}
    {st_idx : List (Int × Nat)} {dprev : Dp} {ot : Nat} {s : Int}
    {v : Int × (ℚ × Option Int)} (h : dpStepBody states A B st_idx dprev ot s = .ok v) :
    v.2.2 = none ∨ ∃ p ∈ candOf states, v.2.2 = some p := by
  unfold dpStepBody at h
  cases h0 : kGet st_idx s with
  | error e => simp [h0] at h
  | ok ci =>
    simp only [h0, exc_bind_ok] at h
    cases h1 : foldE (innerStep A B st_idx dprev ci ot)
        ((-1 : ℚ), (none : Option Int)) (candOf states) with
    | error e => simp [h1] at h
    | ok mc =>
      simp only [h1, exc_bind_ok, exc_map_ok, exc_pure] at h
      cases h
      refine foldE_ok_inv (P := fun acc : ℚ × Option Int =>
        acc.2 = none ∨ ∃ p ∈ candOf states, acc.2 = some p) (Or.inl rfl) ?_ h1
      intro acc x hx hacc w hw
      rcases innerStep_ok_cases hw with h | h
      · rw [h]
        exact hacc
      · exact Or.inr ⟨x, hx, h⟩

theorem dpInit_ok_keys {states : List Int} {A B : List (List ℚ)}
    {st_idx : List (Int × Nat)} {o0 : Nat} {d : Dp}
    (h : dpInit states A B st_idx o0 = .ok d) : d.map Prod.fst = candOf states :=
  eachE_ok_fst (fun _ _ hv => dpInitBody_ok_fst hv) h

theorem dpStep_ok_keys {states : List Int} {A B : List (List ℚ)}
    {st_idx : List (Int × Nat)} {dprev : Dp} {ot : Nat} {d : Dp}
    (h : dpStep states A B st_idx dprev ot = .ok d) : d.map Prod.fst = candOf states :=
  eachE_ok_fst (fun _ _ hv => dpStepBody_ok_fst hv) h

theorem dpStep_ok_prevs {states : List Int} {A B : List (List ℚ)}
    {st_idx : List (Int × Nat)} {dprev : Dp} {ot : Nat} {d : Dp}
    (h : dpStep states A B st_idx dprev ot = .ok d) :
    ∀ e ∈ d, e.2.2 = none ∨ ∃ p ∈ candOf states, e.2.2 = some p := by
  intro e he
  rcases eachE_ok_mem h e he with ⟨s, _, hb⟩
  exact dpStepBody_ok_prev hb

theorem dpRest_ok_step {states : List Int} {A B : List (List ℚ)}
    {st_idx : List (Int × Nat)} :
    ∀ {rest : List Nat} {dprev : Dp} {ds : List Dp},
      dpRest states A B st_idx dprev rest = .ok ds →
      ∀ d ∈ ds, ∃ dp' ot, dpStep states A B st_idx dp' ot = .ok d := by
  intro rest
  induction rest with
  | nil =>
    intro dprev ds h d hd
    cases h
    cases hd
  | cons ot rest ih =>
    intro dprev ds h d hd
    rcases dpRest_cons_ok.mp h with ⟨d1, ds', hstep, hrest, hds⟩
    subst hds
    rcases List.mem_cons.mp hd with h1 | h1
    · exact ⟨dprev, ot, h1 ▸ hstep⟩
    · exact ih hrest d h1

theorem candOf_ne_zero {states : List Int} {s : Int} (h : s ∈ candOf states) : s ≠ 0 := by
  rcases List.mem_filter.mp h with ⟨_, hs⟩
  exact bne_iff_ne.mp hs

theorem dpGet_ok_mem {d : Dp} {s : Int} {v : ℚ × Option Int}
    (h : dpGet d s = .ok v) : (s, v) ∈ d := by
  unfold dpGet at h
  cases hl : List.lookup s d with
  | none => rw [hl] at h; cases h
  | some w =>
    rw [hl] at h
    cases h
    exact lookup_mem hl

theorem pyMaxKey_fold_mem :
    ∀ (rest : List (Int × (ℚ × Option Int))) (e : Int × (ℚ × Option Int)),
      (rest.foldl (fun b kv => if kv.2.1 > b.2.1 then kv else b) e) ∈ e :: rest := by
  intro rest
  induction rest with
  | nil => intro e; simp
  | cons y ys ih =>
    intro e
    simp only [List.foldl_cons]
    have h := ih (if y.2.1 > e.2.1 then y else e)
    rcases List.mem_cons.mp h with h1 | h1
    · rw [h1]
      by_cases hc : y.2.1 > e.2.1
      · simp [hc]
      · simp [hc]
    · simp [h1]

theorem pyMaxKey_ok_mem {d : Dp} {k : Int} (h : pyMaxKey d = .ok k) :
    k ∈ d.map Prod.fst := by
  cases d with
  | nil => cases h
  | cons e rest =>
    simp only [pyMaxKey] at h
    cases h
    exact List.mem_map.mpr ⟨_, pyMaxKey_fold_mem rest e, rfl⟩

theorem backtrace_ne_sentinel {dps : List Dp}
    (hinv : ∀ (t : Nat) (d : Dp), dps[t+1]? = some d → ∀ e ∈ d, e.2.2 ≠ some 0) :
    ∀ {t : Nat} {path res : List (Option Int)},
      (∀ x ∈ path, x ≠ some 0) → backtrace dps t path = .ok res →
      ∀ x ∈ res, x ≠ some 0 := by
  intro t
  induction t with
  | zero =>
    intro path res hp h
    cases h
    exact hp
  | succ t ih =>
    intro path res hp h
    cases path with
    | nil => simp [backtrace] at h
    | cons cur rest =>
      cases cur with
      | none => simp [backtrace] at h
      | some s =>
        simp only [backtrace] at h
        cases hd : dps[t+1]? with
        | none => simp [hd] at h
        | some d =>
          simp only [hd] at h
          cases hv : dpGet d s with
          | error e => simp [hv] at h
          | ok v =>
            simp only [hv] at h
            refine ih ?_ h
            intro x hx
            rcases List.mem_cons.mp hx with h1 | h1
            · subst h1
              exact hinv t d hd (s, v) (dpGet_ok_mem hv)
            · exact hp x h1

/-! First-encountered strict maximization. -/

theorem fold_first_strict {α : Type} (val : α → ℚ) :
    ∀ (rest : List α) (b : α),
      (rest.foldl (fun x y => if val y > val x then y else x) b = b ∧
        ∀ e ∈ rest, val e ≤ val b) ∨
      (∃ r₁ e r₂, rest = r₁ ++ e :: r₂ ∧
        rest.foldl (fun x y => if val y > val x then y else x) b = e ∧
        val b < val e ∧ (∀ x ∈ r₁, val x < val e) ∧ (∀ x ∈ r₂, val x ≤ val e)) := by
  intro rest
  induction rest with
  | nil =>
    intro b
    exact Or.inl ⟨rfl, by simp⟩
  | cons y ys ih =>
    intro b
    simp only [List.foldl_cons]
    by_cases hc : val y > val b
    · rw [if_pos hc]
      rcases ih y with ⟨heq, hle⟩ | ⟨r₁, e, r₂, hys, heq, hlt, hbefore, hafter⟩
      · exact Or.inr ⟨[], y, ys, by simp, heq, hc, by simp, hle⟩
      · refine Or.inr ⟨y :: r₁, e, r₂, by simp [hys], heq, lt_trans hc hlt, ?_, hafter⟩
        intro x hx
        rcases List.mem_cons.mp hx with h1 | h1
        · exact h1 ▸ hlt
        · exact hbefore x h1
    · rw [if_neg hc]
      push_neg at hc
      rcases ih b with ⟨heq, hle⟩ | ⟨r₁, e, r₂, hys, heq, hlt, hbefore, hafter⟩
      · refine Or.inl ⟨heq, ?_⟩
        intro x hx
        rcases List.mem_cons.mp hx with h1 | h1
        · exact h1 ▸ hc
        · exact hle x h1
      · refine Or.inr ⟨y :: r₁, e, r₂, by simp [hys], heq, hlt, ?_, hafter⟩
        intro x hx
        rcases List.mem_cons.mp hx with h1 | h1
        · exact h1 ▸ lt_of_le_of_lt hc hlt
        · exact hbefore x h1

theorem codeFold_from {α : Type} (f : α → ℚ) :
    ∀ (xs : List α) (b : α),
      xs.foldl (fun acc p => if f p > acc.1 then (f p, some p) else acc) (f b, some b)
        = (f (xs.foldl (fun x y => if f y > f x then y else x) b),
           some (xs.foldl (fun x y => if f y > f x then y else x) b)) := by
  intro xs
  induction xs with
  | nil => intro b; rfl
  | cons y ys ih =>
    intro b
    simp only [List.foldl_cons]
    by_cases hc : f y > f b
    · rw [if_pos hc, if_pos hc]
      exact ih y
    · rw [if_neg hc, if_neg hc]
      exact ih b

/-! Counting lemmas for the estimator. -/

theorem sum_map_add_nat {α : Type} (f g : α → Nat) :
    ∀ (l : List α), (l.map (fun x => f x + g x)).sum = (l.map f).sum + (l.map g).sum := by
  intro l
  induction l with
  | nil => rfl
  | cons x xs ih =>
    simp only [List.map_cons, List.sum_cons, ih]
    omega

theorem sum_indicator {v : Int × Int} {s : Int} :
    ∀ (ks : List Int), ks.Nodup → (v.1 = s → v.2 ∈ ks) →
      (ks.map (fun t => if v = (s, t) then (1 : Nat) else 0)).sum
        = if v.1 = s then 1 else 0 := by
  intro ks
  induction ks with
  | nil =>
    intro _ hcov
    by_cases hv : v.1 = s
    · exact absurd (hcov hv) (by simp)
    · simp [hv]
  | cons k ks ih =>
    intro hnd hcov
    have hnd' := List.nodup_cons.mp hnd
    by_cases hv : v.1 = s
    · by_cases hk : v.2 = k
      · have hvv : v = (s, k) := by
          cases v
          simp at hv hk
          simp [hv, hk]
        have hzero : (ks.map (fun t => if v = (s, t) then (1 : Nat) else 0)).sum = 0 := by
          rw [List.sum_eq_zero_iff]
          intro x hx
          rcases List.mem_map.mp hx with ⟨t, ht, hxt⟩
          rw [← hxt, if_neg]
          intro he
          rw [hvv] at he
          have : k = t := (Prod.mk.injEq _ _ _ _).mp he |>.2
          exact hnd'.1 (this ▸ ht)
        simp only [List.map_cons, List.sum_cons, if_pos hvv, hzero, if_pos hv]
      · have hmem : v.2 ∈ ks := by
          rcases List.mem_cons.mp (hcov hv) with h1 | h1
          · exact absurd h1 hk
          · exact h1
        have hhead : (if v = (s, k) then (1 : Nat) else 0) = 0 := by
          rw [if_neg]
          intro he
          exact hk ((Prod.mk.injEq _ _ _ _).mp ((show v = (s, k) from he)) |>.2 ▸ rfl)
        simp only [List.map_cons, List.sum_cons, hhead,
          ih hnd'.2 (fun _ => hmem), Nat.zero_add]
    · have hall : (ks.map (fun t => if v = (s, t) then (1 : Nat) else 0)).sum = 0 := by
        rw [List.sum_eq_zero_iff]
        intro x hx
        rcases List.mem_map.mp hx with ⟨t, ht, hxt⟩
        rw [← hxt, if_neg]
        intro he
        exact hv (by rw [he])
      have hhead : (if v = (s, k) then (1 : Nat) else 0) = 0 := by
        rw [if_neg]
        intro he
        exact hv (by rw [he])
      simp only [List.map_cons, List.sum_cons, hall, hhead, if_neg hv]

theorem sum_count_eq_countP_fst {s : Int} :
    ∀ (l : List (Int × Int)) (ks : List Int), ks.Nodup →
      (∀ p ∈ l, p.1 = s → p.2 ∈ ks) →
      (ks.map (fun t => l.count (s, t))).sum = l.countP (fun p => p.1 == s) := by
  intro l
  induction l with
  | nil => intro ks _ _; simp
  | cons p l ih =>
    intro ks hnd hcov
    have hcov' : ∀ q ∈ l, q.1 = s → q.2 ∈ ks :=
      fun q hq => hcov q (List.mem_cons_of_mem p hq)
    have hsplit : ∀ t : Int, (p :: l).count (s, t)
        = l.count (s, t) + (if p = (s, t) then 1 else 0) := by
      intro t
      rw [List.count_cons]
      congr 1
      by_cases hp : p = (s, t)
      · simp [hp]
      · simp [hp, beq_eq_false_iff_ne.mpr hp]
    have hmap : (ks.map (fun t => (p :: l).count (s, t)))
        = ks.map (fun t => l.count (s, t) + (if p = (s, t) then 1 else 0)) := by
      exact List.map_congr_left (fun t _ => hsplit t)
    rw [hmap, sum_map_add_nat, ih ks hnd hcov',
      sum_indicator ks hnd (hcov p (List.mem_cons_self p l)), List.countP_cons]
    congr 1
    by_cases hp : p.1 = s
    · simp [hp]
    · simp [hp, beq_eq_false_iff_ne.mpr hp]

theorem mem_sortedDistinct {x : Int} {l : List Int} :
    x ∈ sortedDistinct l ↔ x ∈ l := by
  simp [sortedDistinct, List.mem_insertionSort, List.mem_dedup]

theorem sortedDistinct_nodup (l : List Int) : (sortedDistinct l).Nodup :=
  ((List.perm_insertionSort (fun a b : Int => a ≤ b) l.dedup).symm).nodup
    (List.nodup_dedup l)

theorem mem_all_states {c : Corpus} {x : Int} :
    x ∈ all_states c ↔ ∃ r ∈ c, x ∈ r.1 := by
  unfold all_states
  rw [List.mem_flatten]
  constructor
  · rintro ⟨l, hl, hx⟩
    rcases List.mem_map.mp hl with ⟨r, hr, hrl⟩
    exact ⟨r, hr, hrl ▸ hx⟩
  · rintro ⟨r, hr, hx⟩
    exact ⟨r.1, List.mem_map.mpr ⟨r, hr, rfl⟩, hx⟩

theorem mem_all_observables {c : Corpus} {x : Int} :
    x ∈ all_observables c ↔ ∃ r ∈ c, x ∈ r.2 := by
  unfold all_observables
  rw [List.mem_flatten]
  constructor
  · rintro ⟨l, hl, hx⟩
    rcases List.mem_map.mp hl with ⟨r, hr, hrl⟩
    exact ⟨r, hr, hrl ▸ hx⟩
  · rintro ⟨r, hr, hx⟩
    exact ⟨r.2, List.mem_map.mpr ⟨r, hr, rfl⟩, hx⟩

theorem mem_transPairs {c : Corpus} {p : Int × Int} :
    p ∈ transPairs c ↔ ∃ r ∈ c, p ∈ r.1.zip r.1.tail := by
  unfold transPairs
  rw [List.mem_flatten]
  constructor
  · rintro ⟨l, hl, hp⟩
    rcases List.mem_map.mp hl with ⟨r, hr, hrl⟩
    exact ⟨r, hr, hrl ▸ hp⟩
  · rintro ⟨r, hr, hp⟩
    exact ⟨r.1.zip r.1.tail, List.mem_map.mpr ⟨r, hr, rfl⟩, hp⟩

theorem mem_emissPairs {c : Corpus} {p : Int × Int} :
    p ∈ emissPairs c ↔ ∃ r ∈ c, p ∈ r.1.zip r.2 := by
  unfold emissPairs
  rw [List.mem_flatten]
  constructor
  · rintro ⟨l, hl, hp⟩
    rcases List.mem_map.mp hl with ⟨r, hr, hrl⟩
    exact ⟨r, hr, hrl ▸ hp⟩
  · rintro ⟨r, hr, hp⟩
    exact ⟨r.1.zip r.2, List.mem_map.mpr ⟨r, hr, rfl⟩, hp⟩

theorem transPairs_snd_mem {c : Corpus} {p : Int × Int} (h : p ∈ transPairs c) :
    p.2 ∈ sorted_states c := by
  rcases mem_transPairs.mp h with ⟨r, hr, hp⟩
  cases p with
  | mk a b =>
    have hb : b ∈ r.1.tail := (List.of_mem_zip hp).2
    have hb' : b ∈ r.1 := (List.tail_sublist r.1).mem hb
    exact mem_sortedDistinct.mpr (mem_all_states.mpr ⟨r, hr, hb'⟩)

theorem emissPairs_snd_mem {c : Corpus} {p : Int × Int} (h : p ∈ emissPairs c) :
    p.2 ∈ sorted_observables c := by
  rcases mem_emissPairs.mp h with ⟨r, hr, hp⟩
  cases p with
  | mk a b =>
    exact mem_sortedDistinct.mpr (mem_all_observables.mpr ⟨r, hr, (List.of_mem_zip hp).2⟩)

theorem total_outgoing_eq_countP (c : Corpus) (s : Int) :
    total_outgoing c s = (transPairs c).countP (fun p => p.1 == s) := by
  unfold total_outgoing transition_counts
  exact sum_count_eq_countP_fst (transPairs c) (sorted_states c)
    (sortedDistinct_nodup _) (fun p hp _ => transPairs_snd_mem hp)

theorem emission_sum_eq_sac (c : Corpus) (s : Int) :
    ((sorted_observables c).map (fun o => emission_counts c s o)).sum
      = state_appearance_counts c s := by
  unfold emission_counts state_appearance_counts
  exact sum_count_eq_countP_fst (emissPairs c) (sorted_observables c)
    (sortedDistinct_nodup _) (fun p hp _ => emissPairs_snd_mem hp)

theorem sum_map_div_q {α : Type} (f : α → ℚ) (d : ℚ) :
    ∀ (l : List α), (l.map (fun x => f x / d)).sum = (l.map f).sum / d := by
  intro l
  induction l with
  | nil => simp
  | cons x xs ih => simp [ih, add_div]

theorem sum_map_cast_q {α : Type} (g : α → Nat) (l : List α) :
    (l.map (fun x => (g x : ℚ))).sum = (((l.map g).sum : Nat) : ℚ) := by
  rw [Nat.cast_list_sum, List.map_map]
  rfl

theorem trans_row_sum_one (c : Corpus) (s : Int) (h : 0 < total_outgoing c s) :
    (trans_row c s).sum = 1 := by
  unfold trans_row
  have hrw : ((sorted_states c).map (fun t =>
      if 0 < total_outgoing c s then (transition_counts c s t : ℚ) / (total_outgoing c s : ℚ)
      else 0))
      = (sorted_states c).map (fun t =>
        (transition_counts c s t : ℚ) / (total_outgoing c s : ℚ)) :=
    List.map_congr_left (fun t _ => if_pos h)
  rw [hrw, sum_map_div_q, sum_map_cast_q]
  have : ((sorted_states c).map (fun t => transition_counts c s t)).sum
      = total_outgoing c s := rfl
  rw [this]
  exact div_self (by
    simp only [ne_eq, Nat.cast_eq_zero]
    omega)

theorem emiss_row_sum_one (c : Corpus) (s : Int) (h : 0 < state_appearance_counts c s) :
    (emiss_row c s).sum = 1 := by
  unfold emiss_row
  have hrw : ((sorted_observables c).map (fun o =>
      if 0 < state_appearance_counts c s then
        (emission_counts c s o : ℚ) / (state_appearance_counts c s : ℚ)
      else 0))
      = (sorted_observables c).map (fun o =>
        (emission_counts c s o : ℚ) / (state_appearance_counts c s : ℚ)) :=
    List.map_congr_left (fun o _ => if_pos h)
  rw [hrw, sum_map_div_q, sum_map_cast_q, emission_sum_eq_sac]
  exact div_self (by
    simp only [ne_eq, Nat.cast_eq_zero]
    omega)

/-! ### Claim theorems -/

/-- Claim C3 (counterexample): the corpus with the single run
states [1, 2], observations [5] has mismatched lengths, yet estimation does
not fail with a CorpusError: it returns the complete model. -/
theorem c3_mismatch_not_rejected :
    (badCorpus.map (fun r => (r.1.length, r.2.length))) = [(2, 1)] ∧
    estimateE badCorpus = Except.ok (load_hmm badCorpus) ∧
    estimateE badCorpus ≠ Except.error CorpusError.mismatchedRun :=
  ⟨rfl, rfl, by simp [estimateE]⟩

/-- Claim C3 (amended): estimation never fails on any in-memory corpus,
mismatched runs included: it always returns the complete model, and the
emission pairing of a run silently truncates to the shorter of its two
sequences. -/
theorem c3_estimation_total (c : Corpus) :
    estimateE c = Except.ok (load_hmm c) ∧
    ∀ r ∈ c, (emissPairs [r]).length = min r.1.length r.2.length := by
  refine ⟨rfl, ?_⟩
  intro r _
  simp [emissPairs]

/-- Claim C4: decoding an observation sequence containing a label absent
from the model's observation alphabet fails with the unknown-observation
error, before any path is produced; the index map is the one the program
builds from the alphabet. -/
theorem c4_unknown_observation_fails (obs_seq states obsL : List Int)
    (A B : List (List ℚ)) (st_idx : List (Int × Nat)) (o : Int)
    (ho : o ∈ obs_seq) (hno : o ∉ obsL) :
    viterbi obs_seq states obsL A B st_idx (stIdxOf obsL) = .error .unknownObservation := by
  have := obsIdsOf_unknown ⟨o, ho, hno⟩
  simp [viterbi, this]

/-- Claim C4 (witness): label 7 is not in the example alphabet. -/
theorem c4_witness :
    viterbi [5, 7] exStates exObs exA exB (stIdxOf exStates) (stIdxOf exObs)
      = .error .unknownObservation :=
  c4_unknown_observation_fails [5, 7] exStates exObs exA exB (stIdxOf exStates) 7
    (by decide) (by decide)

/-- Claim C5: the sentinel label 0 never occurs at any position of a
successfully decoded path, for every model and index map whatsoever. -/
theorem c5_sentinel_excluded (obs_seq states obs : List Int) (A B : List (List ℚ))
    (st_idx ob_idx : List (Int × Nat)) (path : List (Option Int))
    (h : viterbi obs_seq states obs A B st_idx ob_idx = .ok path) :
    some 0 ∉ path := by
  rcases viterbi_ok_elim h with
    ⟨obs_ids, dps, dlast, final_state, _, hdps, hlast, hmax, hback⟩
  cases obs_ids with
  | nil =>
    cases hdps
    cases hlast
  | cons o0 rest_ids =>
    rcases dpAll_cons_ok.mp hdps with ⟨d0, ds, hinit, hrest, hdps'⟩
    subst hdps'
    have hkeys : ∀ d ∈ d0 :: ds, d.map Prod.fst = candOf states := by
      intro d hd
      rcases List.mem_cons.mp hd with h1 | h1
      · exact h1 ▸ dpInit_ok_keys hinit
      · rcases dpRest_ok_step hrest d h1 with ⟨dp', ot, hstep⟩
        exact dpStep_ok_keys hstep
    have hdl : dlast ∈ d0 :: ds := List.mem_of_mem_getLast? hlast
    have hfinal : final_state ∈ candOf states := by
      have hm := pyMaxKey_ok_mem hmax
      rw [hkeys dlast hdl] at hm
      exact hm
    have hfz : final_state ≠ 0 := candOf_ne_zero hfinal
    have hinv : ∀ (t : Nat) (d : Dp), (d0 :: ds)[t+1]? = some d →
        ∀ e ∈ d, e.2.2 ≠ some 0 := by
      intro t d hd e he
      have hd' : ds[t]? = some d := by simpa using hd
      have hdm : d ∈ ds := List.getElem?_mem hd'
      rcases dpRest_ok_step hrest d hdm with ⟨dp', ot, hstep⟩
      rcases dpStep_ok_prevs hstep e he with h1 | ⟨p, hp, h2⟩
      · rw [h1]
        simp
      · rw [h2]
        simp only [ne_eq, Option.some.injEq]
        exact candOf_ne_zero hp
    have hpath : ∀ x ∈ [some final_state], x ≠ some (0 : Int) := by
      intro x hx
      rcases List.mem_cons.mp hx with h1 | h1
      · subst h1
        simp only [ne_eq, Option.some.injEq]
        exact hfz
      · cases h1
    have hall := backtrace_ne_sentinel hinv hpath hback
    intro hmem
    exact hall (some 0) hmem rfl

/-- Claim C5 (witness): the decoded example path contains no sentinel. -/
theorem c5_witness :
    some (0 : Int) ∉ ([some 1, some 2] : List (Option Int)) :=
  c5_sentinel_excluded [5, 6] exStates exObs exA exB (stIdxOf exStates) (stIdxOf exObs)
    [some 1, some 2] (by
      simp [viterbi, obsIdsOf, eachE, obGet, stIdxOf, dpAll, dpInit, dpInitBody,
        dpRest, dpStep, dpStepBody, innerStep, foldE, kGet, dpGet, mget, pyMaxKey,
        backtrace, candOf, exStates, exObs, exA, exB, List.lookup]
      norm_num
      simp [List.lookup, backtrace, dpGet])

/-- Claim C6: every successful decode returns a path whose length equals the
length of the input observation sequence. -/
theorem c6_path_length (obs_seq states obs : List Int) (A B : List (List ℚ))
    (st_idx ob_idx : List (Int × Nat)) (path : List (Option Int))
    (h : viterbi obs_seq states obs A B st_idx ob_idx = .ok path) :
    path.length = obs_seq.length :=
  viterbi_ok_length h

/-- Claim C6 (witness): the example model decodes [5, 6] to a two-state path. -/
theorem c6_witness :
    ([some (1 : Int), some 2] : List (Option Int)).length = ([5, 6] : List Int).length :=
  c6_path_length [5, 6] exStates exObs exA exB (stIdxOf exStates) (stIdxOf exObs)
    [some 1, some 2] (by
      simp [viterbi, obsIdsOf, eachE, obGet, stIdxOf, dpAll, dpInit, dpInitBody,
        dpRest, dpStep, dpStepBody, innerStep, foldE, kGet, dpGet, mget, pyMaxKey,
        backtrace, candOf, exStates, exObs, exA, exB, List.lookup]
      norm_num
      simp [List.lookup, backtrace, dpGet])

/-- Claim C7: both maximizations of the decoder select the first candidate
(in iteration order) achieving the maximum, with a strict greater-than
comparison so a later tie never overwrites the earliest maximum.  Part one:
the final-state choice pyMaxKey over the last dp table splits the table
around the returned key, everything before it strictly below, everything
after it no greater.  Part two: the inner-loop maximization, whose pure
evaluation is codeFold, splits the candidate list the same way around the
chosen predecessor. -/
theorem c7_first_strict_max :
    (∀ (d : Dp) (k : Int), pyMaxKey d = .ok k →
      ∃ v d₁ d₂, d = d₁ ++ (k, v) :: d₂ ∧
        (∀ e ∈ d₁, e.2.1 < v.1) ∧ (∀ e ∈ d₂, e.2.1 ≤ v.1)) ∧
    (∀ (f : Int → ℚ) (l : List Int) (m : ℚ) (w : Int),
      (∀ x ∈ l, 0 ≤ f x) → codeFold f l = (m, some w) →
      m = f w ∧ ∃ l₁ l₂, l = l₁ ++ w :: l₂ ∧
        (∀ y ∈ l₁, f y < f w) ∧ (∀ y ∈ l₂, f y ≤ f w)) := by
  constructor
  · intro d k h
    cases d with
    | nil => cases h
    | cons e rest =>
      simp only [pyMaxKey] at h
      cases h
      rcases fold_first_strict (fun kv => kv.2.1) rest e with
        ⟨heq, hle⟩ | ⟨r₁, el, r₂, hys, heq, hlt, hbefore, hafter⟩
      · rw [heq]
        exact ⟨e.2, [], rest, by simp, by simp, hle⟩
      · rw [heq]
        refine ⟨el.2, e :: r₁, r₂, by simp [hys], ?_, hafter⟩
        intro x hx
        rcases List.mem_cons.mp hx with h1 | h1
        · exact h1 ▸ hlt
        · exact hbefore x h1
  · intro f l m w hnn h
    cases l with
    | nil =>
      simp only [codeFold, List.foldl_nil] at h
      cases h
    | cons x xs =>
      have hx : f x > -1 :=
        lt_of_lt_of_le (by norm_num) (hnn x (by simp))
      simp only [codeFold, List.foldl_cons, if_pos hx] at h
      rw [codeFold_from f xs x] at h
      have hm : m = f (xs.foldl (fun a y => if f y > f a then y else a) x) := by
        cases h
        rfl
      have hw : w = xs.foldl (fun a y => if f y > f a then y else a) x := by
        cases h
        rfl
      subst hw
      refine ⟨hm, ?_⟩
      rcases fold_first_strict f xs x with
        ⟨heq, hle⟩ | ⟨r₁, el, r₂, hys, heq, hlt, hbefore, hafter⟩
      · rw [heq]
        exact ⟨[], xs, by simp, by simp, hle⟩
      · rw [heq]
        refine ⟨x :: r₁, r₂, by simp [hys], ?_, hafter⟩
        intro y hy
        rcases List.mem_cons.mp hy with h1 | h1
        · exact h1 ▸ hlt
        · exact hbefore y h1

/-- Claim C7 (witness): a concrete tie between two dp entries with equal
scores is resolved to the first key. -/
theorem c7_witness :
    ∃ v d₁ d₂, tieDp = d₁ ++ ((1 : Int), v) :: d₂ ∧
      (∀ e ∈ d₁, e.2.1 < v.1) ∧ (∀ e ∈ d₂, e.2.1 ≤ v.1) :=
  c7_first_strict_max.1 tieDp 1 (by rfl)

/-- Claim C10: the test loop of the prediction driver reads each declared
length but never uses it: two job lists agreeing on the observation label
lines produce identical outputs whatever lengths they declare, and the
decoded path length is determined solely by the labels actually present. -/
theorem c10_declared_length_unused (states obs : List Int) (A B : List (List ℚ))
    (st_idx ob_idx : List (Int × Nat)) (tests tests' : List (Int × List Int))
    (h : tests.map Prod.snd = tests'.map Prod.snd) :
    run_tests states obs A B st_idx ob_idx tests
      = run_tests states obs A B st_idx ob_idx tests' ∧
    ∀ t ∈ tests, ∀ p, run_test states obs A B st_idx ob_idx t = .ok p →
      p.length = t.2.length := by
  constructor
  · have key : ∀ ts : List (Int × List Int),
        run_tests states obs A B st_idx ob_idx ts
          = (ts.map Prod.snd).map (fun ls => viterbi ls states obs A B st_idx ob_idx) := by
      intro ts
      simp [run_tests, run_test, List.map_map]
    rw [key tests, key tests', h]
  · intro t _ p hp
    exact viterbi_ok_length hp

/-- Claim C10 (witness): declared lengths 7 and 2 against the same label
line give the same output. -/
theorem c10_witness :
    run_tests exStates exObs exA exB (stIdxOf exStates) (stIdxOf exObs) [(7, [5, 6])]
      = run_tests exStates exObs exA exB (stIdxOf exStates) (stIdxOf exObs) [(2, [5, 6])] :=
  (c10_declared_length_unused exStates exObs exA exB (stIdxOf exStates) (stIdxOf exObs)
    [(7, [5, 6])] [(2, [5, 6])] (by decide)).1

/-- Claim C2: in the estimated transition matrix, the row of every state
with at least one observed outgoing transition sums to exactly 1, and the
row of a state with none is entirely zero; the same holds for the emission
matrix with respect to the per-state occurrence counts. -/
theorem c2_row_stochastic (c : Corpus) (s : Int) (hs : s ∈ sorted_states c) :
    (0 < (transPairs c).countP (fun p => p.1 == s) → (trans_row c s).sum = 1) ∧
    ((transPairs c).countP (fun p => p.1 == s) = 0 → ∀ x ∈ trans_row c s, x = 0) ∧
    (0 < state_appearance_counts c s → (emiss_row c s).sum = 1) ∧
    (state_appearance_counts c s = 0 → ∀ x ∈ emiss_row c s, x = 0) := by
  refine ⟨?_, ?_, ?_, ?_⟩
  · intro h
    rw [← total_outgoing_eq_countP] at h
    exact trans_row_sum_one c s h
  · intro h
    rw [← total_outgoing_eq_countP] at h
    intro x hx
    rcases List.mem_map.mp hx with ⟨t, _, hxt⟩
    rw [← hxt, if_neg (by omega)]
  · exact emiss_row_sum_one c s
  · intro h
    intro x hx
    rcases List.mem_map.mp hx with ⟨o, _, hxo⟩
    rw [← hxo, if_neg (by omega)]

/-- Claim C2 (witness): the two-run corpus, at state 1. -/
theorem c2_witness :
    (0 < (transPairs permCorpusA).countP (fun p => p.1 == 1) →
      (trans_row permCorpusA 1).sum = 1) ∧
    ((transPairs permCorpusA).countP (fun p => p.1 == 1) = 0 →
      ∀ x ∈ trans_row permCorpusA 1, x = 0) ∧
    (0 < state_appearance_counts permCorpusA 1 → (emiss_row permCorpusA 1).sum = 1) ∧
    (state_appearance_counts permCorpusA 1 = 0 → ∀ x ∈ emiss_row permCorpusA 1, x = 0) :=
  c2_row_stochastic permCorpusA 1 (by decide)

/-- Claim C9 (counterexample): in the corpus with the single run
states [1, 2], observations [5], state 2 is in the state space and occurs in
a training state sequence, yet its occurrence count is zero and its emission
row sums to 0, not 1: the zip truncation skips the state occurrences beyond
the observation sequence. -/
theorem c9_zero_emission_row :
    ((2 : Int) ∈ sorted_states badCorpus) ∧
    ((2 : Int) ∈ all_states badCorpus) ∧
    state_appearance_counts badCorpus 2 = 0 ∧
    (emiss_row badCorpus 2).sum = 0 ∧
    (emiss_row badCorpus 2).sum ≠ 1 := by
  have h : emiss_row badCorpus 2 = [0] := by decide
  refine ⟨by decide, by decide, by decide, ?_, ?_⟩
  · rw [h]
    simp
  · rw [h]
    simp

/-- Claim C9 (amended): for every corpus in which no run's state sequence is
longer than its observation sequence (in particular every structurally valid
corpus), every state of the estimated state space has a positive occurrence
count and its emission row sums to 1. -/
theorem c9_amended_occurrence_positive (c : Corpus)
    (hlen : ∀ r ∈ c, r.1.length ≤ r.2.length) (s : Int)
    (hs : s ∈ sorted_states c) :
    0 < state_appearance_counts c s ∧ (emiss_row c s).sum = 1 := by
  have hpos : 0 < state_appearance_counts c s := by
    rcases mem_all_states.mp (mem_sortedDistinct.mp hs) with ⟨r, hr, hsr⟩
    have hzip : (r.1.zip r.2).map Prod.fst = r.1 :=
      List.map_fst_zip r.1 r.2 (hlen r hr)
    have hcnt : 0 < (r.1.zip r.2).countP (fun p => p.1 == s) := by
      have : (r.1.zip r.2).countP (fun p => p.1 == s) = r.1.count s := by
        conv_rhs => rw [← hzip]
        rw [List.count_eq_countP, List.countP_map]
        rfl
      rw [this]
      exact List.count_pos_iff.mpr hsr
    have hle : (r.1.zip r.2).countP (fun p => p.1 == s)
        ≤ state_appearance_counts c s := by
      unfold state_appearance_counts emissPairs
      rw [List.countP_flatten]
      refine List.single_le_sum (fun x _ => Nat.zero_le x) _ ?_
      rw [List.map_map]
      exact List.mem_map.mpr ⟨r, hr, rfl⟩
    omega
  exact ⟨hpos, emiss_row_sum_one c s hpos⟩

/-- Claim C9 (witness): the two-run corpus has equal-length runs; state 1
has positive occurrences and a unit emission row sum. -/
theorem c9_witness :
    0 < state_appearance_counts permCorpusA 1 ∧ (emiss_row permCorpusA 1).sum = 1 :=
  c9_amended_occurrence_positive permCorpusA (by decide) 1 (by decide)

/-! Permutation invariance of the estimator. -/

theorem sortedDistinct_perm {l₁ l₂ : List Int} (h : l₁.Perm l₂) :
    sortedDistinct l₁ = sortedDistinct l₂ := by
  have hd : l₁.dedup.Perm l₂.dedup := h.dedup
  have h1 := List.perm_insertionSort (fun a b : Int => a ≤ b) l₁.dedup
  have h2 := List.perm_insertionSort (fun a b : Int => a ≤ b) l₂.dedup
  exact List.eq_of_perm_of_sorted (h1.trans (hd.trans h2.symm))
    (List.sorted_insertionSort _ _) (List.sorted_insertionSort _ _)

theorem sorted_states_perm {c₁ c₂ : Corpus} (h : c₁.Perm c₂) :
    sorted_states c₁ = sorted_states c₂ :=
  sortedDistinct_perm (List.Perm.flatten (h.map Prod.fst))

theorem sorted_observables_perm {c₁ c₂ : Corpus} (h : c₁.Perm c₂) :
    sorted_observables c₁ = sorted_observables c₂ :=
  sortedDistinct_perm (List.Perm.flatten (h.map Prod.snd))

theorem transition_counts_perm {c₁ c₂ : Corpus} (h : c₁.Perm c₂) (s t : Int) :
    transition_counts c₁ s t = transition_counts c₂ s t := by
  unfold transition_counts transPairs
  rw [List.count_eq_countP, List.count_eq_countP]
  exact List.Perm.countP_eq _ (List.Perm.flatten (h.map (fun r => r.1.zip r.1.tail)))

theorem emission_counts_perm {c₁ c₂ : Corpus} (h : c₁.Perm c₂) (s o : Int) :
    emission_counts c₁ s o = emission_counts c₂ s o := by
  unfold emission_counts emissPairs
  rw [List.count_eq_countP, List.count_eq_countP]
  exact List.Perm.countP_eq _ (List.Perm.flatten (h.map (fun r => r.1.zip r.2)))

theorem state_appearance_counts_perm {c₁ c₂ : Corpus} (h : c₁.Perm c₂) (s : Int) :
    state_appearance_counts c₁ s = state_appearance_counts c₂ s := by
  unfold state_appearance_counts emissPairs
  exact List.Perm.countP_eq _ (List.Perm.flatten (h.map (fun r => r.1.zip r.2)))

theorem total_outgoing_perm {c₁ c₂ : Corpus} (h : c₁.Perm c₂) (s : Int) :
    total_outgoing c₁ s = total_outgoing c₂ s := by
  unfold total_outgoing
  rw [sorted_states_perm h]
  exact congrArg List.sum
    (List.map_congr_left (fun t _ => transition_counts_perm h s t))

/-- Claim C8: estimation is invariant under permutation of the corpus runs:
permuted corpora produce the same state space, observation alphabet,
transition matrix, emission matrix and index maps. -/
theorem c8_order_invariant (c₁ c₂ : Corpus) (h : c₁.Perm c₂) :
    load_hmm c₁ = load_hmm c₂ := by
  have hss := sorted_states_perm h
  have hso := sorted_observables_perm h
  have hrowA : ∀ s, trans_row c₁ s = trans_row c₂ s := by
    intro s
    unfold trans_row
    rw [hss]
    exact List.map_congr_left (fun t _ => by
      rw [total_outgoing_perm h, transition_counts_perm h])
  have hrowB : ∀ s, emiss_row c₁ s = emiss_row c₂ s := by
    intro s
    unfold emiss_row
    rw [hso]
    exact List.map_congr_left (fun o _ => by
      rw [state_appearance_counts_perm h, emission_counts_perm h])
  have hmA : trans_matrix c₁ = trans_matrix c₂ := by
    unfold trans_matrix
    rw [hss]
    exact List.map_congr_left (fun s _ => hrowA s)
  have hmB : emiss_matrix c₁ = emiss_matrix c₂ := by
    unfold emiss_matrix
    rw [hss]
    exact List.map_congr_left (fun s _ => hrowB s)
  simp [load_hmm, hss, hso, hmA, hmB]

/-- Claim C8 (witness): the two concrete permuted corpora estimate to the
same model. -/
theorem c8_witness : load_hmm permCorpusA = load_hmm permCorpusB :=
  c8_order_invariant permCorpusA permCorpusB (by decide)

/-! Evaluation of the decoder under a well-formed model: the bridge to the
spec's dynamic program. -/

theorem candOf_mem_states {states : List Int} {s : Int} (h : s ∈ candOf states) :
    s ∈ states :=
  (List.mem_filter.mp h).1

theorem kGet_stIdx {l : List Int} {s : Int} (h : s ∈ l) :
    kGet (stIdxOf l) s = .ok (l.indexOf s) := by
  unfold kGet
  rw [lookup_stIdxOf_some h]

theorem obsIdsOf_known {obsL obs_seq : List Int} (h : ∀ o ∈ obs_seq, o ∈ obsL) :
    obsIdsOf (stIdxOf obsL) obs_seq = .ok (obs_seq.map (fun o => obsL.indexOf o)) :=
  eachE_ok_map (fun o ho => by
    unfold obGet
    rw [lookup_stIdxOf_some (h o ho)])

theorem mget_ok {m : List (List ℚ)} {i j : Nat} (h1 : i < m.length)
    (h2 : j < (m.getD i []).length) : mget m i j = .ok (ent m i j) := by
  unfold mget ent
  have hrow : m.getD i [] = m[i] := by
    rw [List.getD_eq_getElem?_getD, List.getElem?_eq_getElem h1]
    rfl
  rw [hrow] at h2
  simp only [List.getElem?_eq_getElem h1, List.getElem?_eq_getElem h2]
  rw [hrow, List.getD_eq_getElem?_getD, List.getElem?_eq_getElem h2]
  rfl

theorem ent_nonneg {m : List (List ℚ)} (hm : ∀ row ∈ m, ∀ x ∈ row, 0 ≤ x)
    (i j : Nat) : 0 ≤ ent m i j := by
  unfold ent
  rcases Nat.lt_or_ge i m.length with hi | hi
  · have hrow : m.getD i [] = m[i] := by
      rw [List.getD_eq_getElem?_getD, List.getElem?_eq_getElem hi]
      rfl
    rw [hrow]
    rcases Nat.lt_or_ge j (m[i]).length with hj | hj
    · have : (m[i]).getD j 0 = (m[i])[j] := by
        rw [List.getD_eq_getElem?_getD, List.getElem?_eq_getElem hj]
        rfl
      rw [this]
      exact hm m[i] (List.getElem_mem hi) _ (List.getElem_mem hj)
    · rw [List.getD_eq_getElem?_getD, List.getElem?_eq_none hj]
      simp
  · have : m.getD i [] = [] := by
      rw [List.getD_eq_getElem?_getD, List.getElem?_eq_none hi]
      rfl
    rw [this]
    simp

theorem dpGet_map {g : Int → ℚ × Option Int} :
    ∀ {l : List Int} {p : Int}, p ∈ l →
      dpGet (l.map (fun s => (s, g s))) p = .ok (g p) := by
  intro l
  induction l with
  | nil => intro p hp; cases hp
  | cons x xs ih =>
    intro p hp
    unfold dpGet
    by_cases hx : p = x
    · subst hx
      simp [List.lookup_cons]
    · have hmem : p ∈ xs := by
        rcases List.mem_cons.mp hp with h1 | h1
        · exact absurd h1 hx
        · exact h1
      simp only [List.map_cons, List.lookup_cons,
        show ((p == x) = false) from beq_eq_false_iff_ne.mpr hx]
      have := ih hmem
      unfold dpGet at this
      cases hl : List.lookup p (xs.map (fun s => (s, g s))) with
      | none => rw [hl] at this; cases this
      | some v =>
        rw [hl] at this
        cases this
        rfl

theorem listMaxQ_le_self : ∀ (xs : List ℚ) (x : ℚ), x ≤ listMaxQ x xs := by
  intro xs
  induction xs with
  | nil => intro x; exact le_refl x
  | cons y ys ih =>
    intro x
    unfold listMaxQ at ih ⊢
    rw [List.foldl_cons]
    exact le_trans (le_max_left x y) (ih (max x y))

theorem listMaxQ_mul_nonneg {b : ℚ} (hb : 0 ≤ b) {α : Type} (g : α → ℚ) :
    ∀ (cs : List α) (x : ℚ),
      listMaxQ (x * b) (cs.map (fun p => g p * b)) = listMaxQ x (cs.map g) * b := by
  intro cs
  induction cs with
  | nil => intro x; rfl
  | cons y ys ih =>
    intro x
    unfold listMaxQ at ih ⊢
    simp only [List.map_cons, List.foldl_cons]
    rw [← max_mul_of_nonneg _ _ hb]
    exact ih (max x (g y))

theorem firstMax_image {α : Type} (f : α → ℚ) :
    ∀ (cs : List α) (c : α), f (firstMax f c cs) = listMaxQ (f c) (cs.map f) := by
  intro cs
  induction cs with
  | nil => intro c; rfl
  | cons y ys ih =>
    intro c
    unfold firstMax listMaxQ at ih ⊢
    simp only [List.map_cons, List.foldl_cons]
    have harg : f (if f y > f c then y else c) = max (f c) (f y) := by
      by_cases hc : f y > f c
      · rw [if_pos hc, max_eq_right (le_of_lt hc)]
      · rw [if_neg hc, max_eq_left (not_lt.mp hc)]
    rw [← harg]
    exact ih (if f y > f c then y else c)

theorem firstMax_mem {α : Type} (f : α → ℚ) :
    ∀ (cs : List α) (c : α), firstMax f c cs ∈ c :: cs := by
  intro cs
  induction cs with
  | nil => intro c; simp [firstMax]
  | cons y ys ih =>
    intro c
    unfold firstMax at ih ⊢
    rw [List.foldl_cons]
    have h := ih (if f y > f c then y else c)
    rcases List.mem_cons.mp h with h1 | h1
    · rw [h1]
      by_cases hc : f y > f c
      · simp [hc]
      · simp [hc]
    · simp [h1]

theorem codeFold_eval {f : Int → ℚ} {c : Int} {cs : List Int} (h : 0 ≤ f c) :
    codeFold f (c :: cs) = (f (firstMax f c cs), some (firstMax f c cs)) := by
  unfold codeFold firstMax
  rw [List.foldl_cons, if_pos (lt_of_lt_of_le (by norm_num) h)]
  exact codeFold_from f cs c

theorem specScore_nonneg {states obsL : List Int} {A B : List (List ℚ)}
    {obsSeq : List Int} (hA : ∀ row ∈ A, ∀ x ∈ row, 0 ≤ x)
    (hB : ∀ row ∈ B, ∀ x ∈ row, 0 ≤ x) :
    ∀ (t : Nat) (s : Int), 0 ≤ specScore states obsL A B obsSeq t s := by
  intro t
  induction t with
  | zero =>
    intro s
    exact mul_nonneg (ent_nonneg hA _ _) (ent_nonneg hB _ _)
  | succ t ih =>
    intro s
    unfold specScore
    refine mul_nonneg ?_ (ent_nonneg hB _ _)
    cases hS : candOf states with
    | nil => exact le_refl 0
    | cons c cs =>
      exact le_trans (mul_nonneg (ih c) (ent_nonneg hA _ _)) (listMaxQ_le_self _ _)

theorem getD_row_length {m : List (List ℚ)} {n : Nat}
    (hml : ∀ row ∈ m, row.length = n) {i : Nat} (hi : i < m.length) :
    (m.getD i []).length = n := by
  have : m.getD i [] = m[i] := by
    rw [List.getD_eq_getElem?_getD, List.getElem?_eq_getElem hi]
    rfl
  rw [this]
  exact hml _ (List.getElem_mem hi)

theorem mget_wf_ok {m : List (List ℚ)} {rows cols : Nat} (h1 : m.length = rows)
    (h2 : ∀ row ∈ m, row.length = cols) {i j : Nat} (hi : i < rows) (hj : j < cols) :
    mget m i j = .ok (ent m i j) := by
  have hi' : i < m.length := by omega
  refine mget_ok hi' ?_
  rw [getD_row_length h2 hi']
  exact hj

theorem dpInitBody_eval {states obsL : List Int} {A B : List (List ℚ)}
    (hA1 : A.length = states.length) (hA2 : ∀ row ∈ A, row.length = states.length)
    (hB1 : B.length = states.length) (hB2 : ∀ row ∈ B, row.length = obsL.length)
    (h0 : 0 ∈ states) {o0 : Nat} (ho0 : o0 < obsL.length) {s : Int} (hs : s ∈ states) :
    dpInitBody A B (stIdxOf states) o0 s
      = .ok (s, (ent A (states.indexOf 0) (states.indexOf s)
          * ent B (states.indexOf s) o0, some 0)) := by
  unfold dpInitBody
  rw [kGet_stIdx h0]
  simp only [exc_bind_ok]
  rw [kGet_stIdx hs]
  simp only [exc_bind_ok]
  rw [mget_wf_ok hA1 hA2 (List.indexOf_lt_length.mpr h0) (List.indexOf_lt_length.mpr hs)]
  simp only [exc_bind_ok]
  rw [mget_wf_ok hB1 hB2 (List.indexOf_lt_length.mpr hs) ho0]
  simp only [exc_bind_ok, exc_map_ok, exc_pure]

theorem dpInit_eval {states obsL : List Int} {A B : List (List ℚ)}
    (hA1 : A.length = states.length) (hA2 : ∀ row ∈ A, row.length = states.length)
    (hB1 : B.length = states.length) (hB2 : ∀ row ∈ B, row.length = obsL.length)
    (h0 : 0 ∈ states) {o0 : Nat} (ho0 : o0 < obsL.length) :
    dpInit states A B (stIdxOf states) o0
      = .ok ((candOf states).map (fun s =>
          (s, (ent A (states.indexOf 0) (states.indexOf s)
            * ent B (states.indexOf s) o0, some 0)))) :=
  eachE_ok_map (fun s hs =>
    dpInitBody_eval hA1 hA2 hB1 hB2 h0 ho0 (candOf_mem_states hs))

theorem innerStep_eval {states obsL : List Int} {A B : List (List ℚ)}
    (hA1 : A.length = states.length) (hA2 : ∀ row ∈ A, row.length = states.length)
    (hB1 : B.length = states.length) (hB2 : ∀ row ∈ B, row.length = obsL.length)
    {w : Int → ℚ × Option Int} {ci ot : Nat} (hci : ci < states.length)
    (hot : ot < obsL.length) {p : Int} (hp : p ∈ candOf states) (acc : ℚ × Option Int) :
    innerStep A B (stIdxOf states) ((candOf states).map (fun q => (q, w q))) ci ot acc p
      = .ok (if (w p).1 * ent A (states.indexOf p) ci * ent B ci ot > acc.1
          then ((w p).1 * ent A (states.indexOf p) ci * ent B ci ot, some p)
          else acc) := by
  unfold innerStep
  rw [kGet_stIdx (candOf_mem_states hp)]
  simp only [exc_bind_ok]
  rw [dpGet_map hp]
  simp only [exc_bind_ok]
  rw [mget_wf_ok hA1 hA2 (List.indexOf_lt_length.mpr (candOf_mem_states hp)) hci]
  simp only [exc_bind_ok]
  rw [mget_wf_ok hB1 hB2 hci hot]
  simp only [exc_bind_ok, exc_map_ok, exc_pure]

theorem dpStepBody_eval {states obsL : List Int} {A B : List (List ℚ)}
    (hA1 : A.length = states.length) (hA2 : ∀ row ∈ A, row.length = states.length)
    (hB1 : B.length = states.length) (hB2 : ∀ row ∈ B, row.length = obsL.length)
    {w : Int → ℚ × Option Int} {ot : Nat} (hot : ot < obsL.length) {s : Int}
    (hs : s ∈ states) :
    dpStepBody states A B (stIdxOf states) ((candOf states).map (fun q => (q, w q))) ot s
      = .ok (s, codeFold (fun p => (w p).1
          * ent A (states.indexOf p) (states.indexOf s)
          * ent B (states.indexOf s) ot) (candOf states)) := by
  unfold dpStepBody
  rw [kGet_stIdx hs]
  simp only [exc_bind_ok]
  rw [foldE_ok_foldl (fun acc p hp =>
    innerStep_eval hA1 hA2 hB1 hB2 (List.indexOf_lt_length.mpr hs) hot hp acc)]
  simp only [exc_bind_ok, exc_map_ok, exc_pure]
  rfl

theorem dpStep_eval {states obsL : List Int} {A B : List (List ℚ)}
    (hA1 : A.length = states.length) (hA2 : ∀ row ∈ A, row.length = states.length)
    (hB1 : B.length = states.length) (hB2 : ∀ row ∈ B, row.length = obsL.length)
    {w : Int → ℚ × Option Int} {ot : Nat} (hot : ot < obsL.length) :
    dpStep states A B (stIdxOf states) ((candOf states).map (fun q => (q, w q))) ot
      = .ok ((candOf states).map (fun s =>
          (s, codeFold (fun p => (w p).1
            * ent A (states.indexOf p) (states.indexOf s)
            * ent B (states.indexOf s) ot) (candOf states)))) :=
  eachE_ok_map (fun s hs =>
    dpStepBody_eval hA1 hA2 hB1 hB2 hot (candOf_mem_states hs))

theorem dpTable_shape (states obsL : List Int) (A B : List (List ℚ)) (obsSeq : List Int)
    (t : Nat) :
    ∃ w : Int → ℚ × Option Int,
      dpTable states obsL A B obsSeq t = (candOf states).map (fun s => (s, w s)) ∧
      ∀ s, (w s).1 = specScore states obsL A B obsSeq t s := by
  cases t with
  | zero =>
    exact ⟨fun s => (specScore states obsL A B obsSeq 0 s, some 0), rfl, fun _ => rfl⟩
  | succ t =>
    exact ⟨fun s => (specScore states obsL A B obsSeq (t+1) s,
      some (specBpEm states obsL A B obsSeq (t+1) s)), rfl, fun _ => rfl⟩

theorem getD_mem_of_lt {l : List Int} {n : Nat} (h : n < l.length) :
    l.getD n 0 ∈ l := by
  have : l.getD n 0 = l[n] := by
    rw [List.getD_eq_getElem?_getD, List.getElem?_eq_getElem h]
    rfl
  rw [this]
  exact List.getElem_mem h

theorem dpStep_table {states obsL : List Int} {A B : List (List ℚ)} {obsSeq : List Int}
    (hA1 : A.length = states.length) (hA2 : ∀ row ∈ A, row.length = states.length)
    (hB1 : B.length = states.length) (hB2 : ∀ row ∈ B, row.length = obsL.length)
    (hAnn : ∀ row ∈ A, ∀ x ∈ row, 0 ≤ x) (hBnn : ∀ row ∈ B, ∀ x ∈ row, 0 ≤ x)
    (hobs : ∀ o ∈ obsSeq, o ∈ obsL) (t : Nat) (ht : t + 1 < obsSeq.length) :
    dpStep states A B (stIdxOf states) (dpTable states obsL A B obsSeq t)
        (obsL.indexOf (obsSeq.getD (t+1) 0))
      = .ok (dpTable states obsL A B obsSeq (t+1)) := by
  rcases dpTable_shape states obsL A B obsSeq t with ⟨w, hw, hw1⟩
  have hot : obsL.indexOf (obsSeq.getD (t+1) 0) < obsL.length :=
    List.indexOf_lt_length.mpr (hobs _ (getD_mem_of_lt ht))
  rw [hw, dpStep_eval hA1 hA2 hB1 hB2 hot]
  show _ = Except.ok ((candOf states).map (fun s =>
      (s, (specScore states obsL A B obsSeq (t+1) s,
           some (specBpEm states obsL A B obsSeq (t+1) s)))))
  congr 1
  refine List.map_congr_left ?_
  intro s hsS
  have hf : (fun p => (w p).1 * ent A (states.indexOf p) (states.indexOf s)
      * ent B (states.indexOf s) (obsL.indexOf (obsSeq.getD (t+1) 0)))
      = (fun p => specScore states obsL A B obsSeq t p
          * ent A (states.indexOf p) (states.indexOf s)
          * ent B (states.indexOf s) (obsL.indexOf (obsSeq.getD (t+1) 0))) := by
    funext p
    rw [hw1]
  rw [hf]
  cases hS : candOf states with
  | nil => exact absurd (hS ▸ hsS) (by simp)
  | cons c cs =>
    have hnn : 0 ≤ specScore states obsL A B obsSeq t c
        * ent A (states.indexOf c) (states.indexOf s)
        * ent B (states.indexOf s) (obsL.indexOf (obsSeq.getD (t+1) 0)) :=
      mul_nonneg (mul_nonneg (specScore_nonneg hAnn hBnn t c) (ent_nonneg hAnn _ _))
        (ent_nonneg hBnn _ _)
    rw [codeFold_eval hnn]
    have hbp : firstMax (fun p => specScore states obsL A B obsSeq t p
        * ent A (states.indexOf p) (states.indexOf s)
        * ent B (states.indexOf s) (obsL.indexOf (obsSeq.getD (t+1) 0))) c cs
        = specBpEm states obsL A B obsSeq (t+1) s := by
      unfold specBpEm
      rw [hS]
      simp only [aEnt, bEnt, Nat.add_sub_cancel]
    have hsc := firstMax_image (fun p => specScore states obsL A B obsSeq t p
        * ent A (states.indexOf p) (states.indexOf s)
        * ent B (states.indexOf s) (obsL.indexOf (obsSeq.getD (t+1) 0))) cs c
    have hmid := listMaxQ_mul_nonneg
      (ent_nonneg hBnn (states.indexOf s) (obsL.indexOf (obsSeq.getD (t+1) 0)))
      (fun p => specScore states obsL A B obsSeq t p
        * ent A (states.indexOf p) (states.indexOf s)) cs
      (specScore states obsL A B obsSeq t c * ent A (states.indexOf c) (states.indexOf s))
    have hsc2 : listMaxQ (specScore states obsL A B obsSeq t c
        * ent A (states.indexOf c) (states.indexOf s))
        (cs.map (fun p => specScore states obsL A B obsSeq t p
          * ent A (states.indexOf p) (states.indexOf s)))
        * ent B (states.indexOf s) (obsL.indexOf (obsSeq.getD (t+1) 0))
        = specScore states obsL A B obsSeq (t+1) s := by
      simp only [specScore, hS, aEnt, bEnt]
    have hval := hsc.trans (hmid.trans hsc2)
    rw [hval, hbp]

theorem dpRest_table {states obsL : List Int} {A B : List (List ℚ)} {obsSeq : List Int}
    (hA1 : A.length = states.length) (hA2 : ∀ row ∈ A, row.length = states.length)
    (hB1 : B.length = states.length) (hB2 : ∀ row ∈ B, row.length = obsL.length)
    (hAnn : ∀ row ∈ A, ∀ x ∈ row, 0 ≤ x) (hBnn : ∀ row ∈ B, ∀ x ∈ row, 0 ≤ x)
    (hobs : ∀ o ∈ obsSeq, o ∈ obsL) :
    ∀ (n k : Nat), k + 1 + n = obsSeq.length →
      dpRest states A B (stIdxOf states) (dpTable states obsL A B obsSeq k)
          ((obsSeq.map (fun o => obsL.indexOf o)).drop (k+1))
        = .ok ((List.range' (k+1) n).map (dpTable states obsL A B obsSeq)) := by
  intro n
  induction n with
  | zero =>
    intro k hk
    have hdrop : (obsSeq.map (fun o => obsL.indexOf o)).drop (k+1) = [] :=
      List.drop_eq_nil_of_le (by simp; omega)
    rw [hdrop]
    rfl
  | succ n ih =>
    intro k hk
    have hk1 : k + 1 < obsSeq.length := by omega
    have hlen : k + 1 < (obsSeq.map (fun o => obsL.indexOf o)).length := by
      simp
      omega
    have hdrop : (obsSeq.map (fun o => obsL.indexOf o)).drop (k+1)
        = obsL.indexOf (obsSeq.getD (k+1) 0)
          :: (obsSeq.map (fun o => obsL.indexOf o)).drop (k+2) := by
      rw [List.drop_eq_getElem_cons hlen]
      congr 1
      rw [List.getElem_map]
      congr 1
      rw [List.getD_eq_getElem?_getD, List.getElem?_eq_getElem hk1]
      rfl
    rw [hdrop]
    refine dpRest_cons_ok.mpr ⟨dpTable states obsL A B obsSeq (k+1),
      (List.range' (k+2) n).map (dpTable states obsL A B obsSeq),
      dpStep_table hA1 hA2 hB1 hB2 hAnn hBnn hobs k hk1, ?_, ?_⟩
    · exact ih (k+1) (by omega)
    · rw [List.range'_succ]
      rfl

theorem dpAll_table {states obsL : List Int} {A B : List (List ℚ)} {o0 : Int}
    {os : List Int}
    (hA1 : A.length = states.length) (hA2 : ∀ row ∈ A, row.length = states.length)
    (hB1 : B.length = states.length) (hB2 : ∀ row ∈ B, row.length = obsL.length)
    (hAnn : ∀ row ∈ A, ∀ x ∈ row, 0 ≤ x) (hBnn : ∀ row ∈ B, ∀ x ∈ row, 0 ≤ x)
    (h0 : 0 ∈ states) (hobs : ∀ o ∈ o0 :: os, o ∈ obsL) :
    dpAll states A B (stIdxOf states) ((o0 :: os).map (fun o => obsL.indexOf o))
      = .ok ((List.range (o0 :: os).length).map
          (dpTable states obsL A B (o0 :: os))) := by
  have ho0 : obsL.indexOf o0 < obsL.length :=
    List.indexOf_lt_length.mpr (hobs o0 (by simp))
  rw [List.map_cons]
  refine dpAll_cons_ok.mpr ⟨dpTable states obsL A B (o0 :: os) 0,
    (List.range' 1 os.length).map (dpTable states obsL A B (o0 :: os)), ?_, ?_, ?_⟩
  · rw [dpInit_eval hA1 hA2 hB1 hB2 h0 ho0]
    rfl
  · have hk : 0 + 1 + os.length = (o0 :: os).length := by
      simp only [List.length_cons]
      omega
    have hd := dpRest_table hA1 hA2 hB1 hB2 hAnn hBnn hobs os.length 0 hk
    simp only [List.map_cons, List.drop_succ_cons, List.drop_zero] at hd
    exact hd
  · show (List.range (o0 :: os).length).map (dpTable states obsL A B (o0 :: os))
      = dpTable states obsL A B (o0 :: os) 0
        :: (List.range' 1 os.length).map (dpTable states obsL A B (o0 :: os))
    rw [List.length_cons, List.range_eq_range', List.range'_succ, List.map_cons]

theorem pyMaxKey_map {g : Int → ℚ × Option Int} :
    ∀ (cs : List Int) (c : Int),
      pyMaxKey ((c :: cs).map (fun s => (s, g s)))
        = .ok (firstMax (fun s => (g s).1) c cs) := by
  have key : ∀ (cs : List Int) (c : Int),
      ((cs.map (fun s => (s, g s))).foldl
          (fun b kv => if kv.2.1 > b.2.1 then kv else b) (c, g c))
        = (firstMax (fun s => (g s).1) c cs,
           g (firstMax (fun s => (g s).1) c cs)) := by
    intro cs
    induction cs with
    | nil => intro c; rfl
    | cons y ys ih =>
      intro c
      simp only [List.map_cons, List.foldl_cons]
      by_cases hc : (g y).1 > (g c).1
      · rw [if_pos hc]
        have hfm : firstMax (fun s => (g s).1) c (y :: ys)
            = firstMax (fun s => (g s).1) y ys := by
          unfold firstMax
          rw [List.foldl_cons, if_pos hc]
        rw [hfm]
        exact ih y
      · rw [if_neg hc]
        have hfm : firstMax (fun s => (g s).1) c (y :: ys)
            = firstMax (fun s => (g s).1) c ys := by
          unfold firstMax
          rw [List.foldl_cons, if_neg hc]
        rw [hfm]
        exact ih c
  intro cs c
  simp only [List.map_cons, pyMaxKey]
  rw [key cs c]

theorem backtrace_table {states obsL : List Int} {A B : List (List ℚ)}
    {obsSeq : List Int} :
    ∀ (t : Nat), t + 1 ≤ obsSeq.length →
      ∀ (x : Int), x ∈ candOf states → ∀ (acc : List (Option Int)),
      backtrace ((List.range obsSeq.length).map (dpTable states obsL A B obsSeq)) t
          (some x :: acc)
        = .ok (((specBack (specBpEm states obsL A B obsSeq) t x).map some) ++ acc) := by
  intro t
  induction t with
  | zero =>
    intro _ x _ acc
    rfl
  | succ t ih =>
    intro ht x hx acc
    have hidx : ((List.range obsSeq.length).map (dpTable states obsL A B obsSeq))[t+1]?
        = some (dpTable states obsL A B obsSeq (t+1)) := by
      rw [List.getElem?_map, List.getElem?_range (by omega)]
      rfl
    have hbpmem : specBpEm states obsL A B obsSeq (t+1) x ∈ candOf states := by
      unfold specBpEm
      cases hS : candOf states with
      | nil => exact absurd (hS ▸ hx) (by simp)
      | cons c cs =>
        show firstMax _ c cs ∈ c :: cs
        exact firstMax_mem _ cs c
    simp only [backtrace, hidx]
    rw [show dpTable states obsL A B obsSeq (t+1)
        = (candOf states).map (fun s =>
            (s, (specScore states obsL A B obsSeq (t+1) s,
                 some (specBpEm states obsL A B obsSeq (t+1) s)))) from rfl]
    simp only [dpGet_map hx]
    rw [ih (by omega) _ hbpmem (some x :: acc)]
    simp [specBack, List.map_append]

/-- Claim C1 (amended): for every well-formed model whose state space
contains the sentinel 0 and every non-empty observation sequence over the
model's alphabet, the decoder computes the spec's dynamic program with the
backpointer amended to carry the emission factor inside its maximand, as the
source does at predictions.py line 94; the score values are exactly the
spec's. -/
theorem c1_viterbi_matches_spec_em (states obsL : List Int) (A B : List (List ℚ))
    (obsSeq : List Int) (hwf : WFModel states obsL A B) (h0 : 0 ∈ states)
    (hne : obsSeq ≠ []) (hobs : ∀ o ∈ obsSeq, o ∈ obsL) :
    (viterbi obsSeq states obsL A B (stIdxOf states) (stIdxOf obsL)).toOption
      = (specViterbiEm states obsL A B obsSeq).map (List.map some) := by
  obtain ⟨hs1, hs2, hA1, hA2, hB1, hB2, hAnn, hBnn⟩ := hwf
  obtain ⟨o0, os, rfl⟩ : ∃ o0 os, obsSeq = o0 :: os := by
    cases obsSeq with
    | nil => exact absurd rfl hne
    | cons a l => exact ⟨a, l, rfl⟩
  have hids := @obsIdsOf_known obsL (o0 :: os) hobs
  have hdps := dpAll_table hA1 hA2 hB1 hB2 hAnn hBnn h0 hobs
  simp only [viterbi, hids, hdps]
  have hlast : ((List.range (o0 :: os).length).map
      (dpTable states obsL A B (o0 :: os))).getLast?
      = some (dpTable states obsL A B (o0 :: os) os.length) := by
    rw [List.length_cons, List.range_succ, List.map_append]
    exact List.getLast?_concat _
  simp only [hlast]
  cases hS : candOf states with
  | nil =>
    have hdT : dpTable states obsL A B (o0 :: os) os.length = [] := by
      rcases dpTable_shape states obsL A B (o0 :: os) os.length with ⟨w, hw, _⟩
      rw [hw, hS]
      rfl
    rw [hdT]
    simp [pyMaxKey, specViterbiEm, specDecode, hS, Except.toOption]
  | cons c cs =>
    rcases dpTable_shape states obsL A B (o0 :: os) os.length with ⟨w, hw, hw1⟩
    have hpk : pyMaxKey (dpTable states obsL A B (o0 :: os) os.length)
        = .ok (firstMax (specScore states obsL A B (o0 :: os) os.length) c cs) := by
      rw [hw, hS, pyMaxKey_map]
      congr 1
      have hfun : (fun s => (w s).1)
          = specScore states obsL A B (o0 :: os) os.length :=
        funext (fun s => hw1 s)
      rw [hfun]
    simp only [hpk]
    have hfinmem : firstMax (specScore states obsL A B (o0 :: os) os.length) c cs
        ∈ candOf states := by
      rw [hS]
      exact firstMax_mem _ cs c
    have hlen : (o0 :: os).length - 1 = os.length := by simp
    rw [hlen, backtrace_table os.length (by simp) _ hfinmem []]
    simp only [Except.toOption]
    simp [specViterbiEm, specDecode, hS, hlen]

/-- Claim C1 (counterexample): a well-formed model containing the sentinel,
with a non-empty in-alphabet observation sequence, on which the decoder's
path differs from the spec's dynamic program as literally stated: the
emission column of observation 6 is all zero, so the source (whose
backpointer maximand carries the emission factor and collapses to a tie
resolved to the first candidate) picks predecessor 1 while the spec's
backpointer (emission factor outside the maximization) picks predecessor 2. -/
theorem c1_code_differs_from_spec :
    WFModel cexStates cexObs cexA cexB ∧
    (0 : Int) ∈ cexStates ∧
    cexSeq ≠ [] ∧
    cexSeq.all (fun o => cexObs.contains o) = true ∧
    viterbi cexSeq cexStates cexObs cexA cexB (stIdxOf cexStates) (stIdxOf cexObs)
      = Except.ok [some 1, some 1] ∧
    specViterbi cexStates cexObs cexA cexB cexSeq = some [2, 1] ∧
    (viterbi cexSeq cexStates cexObs cexA cexB (stIdxOf cexStates)
        (stIdxOf cexObs)).toOption
      ≠ (specViterbi cexStates cexObs cexA cexB cexSeq).map (List.map some) := by
  have hv : viterbi cexSeq cexStates cexObs cexA cexB (stIdxOf cexStates)
      (stIdxOf cexObs) = Except.ok [some 1, some 1] := by
    simp [viterbi, obsIdsOf, eachE, obGet, stIdxOf, dpAll, dpInit, dpInitBody,
      dpRest, dpStep, dpStepBody, innerStep, foldE, kGet, dpGet, mget, pyMaxKey,
      backtrace, candOf, cexStates, cexObs, cexA, cexB, cexSeq, List.lookup]
  have hsp : specViterbi cexStates cexObs cexA cexB cexSeq = some [2, 1] := by
    simp [specViterbi, specDecode, specBack, specBp, specScore, firstMax,
      listMaxQ, candOf, aEnt, bEnt, ent, cexStates, cexObs, cexA, cexB, cexSeq,
      List.indexOf, List.findIdx, List.findIdx.go]
  refine ⟨by decide, by decide, by decide, by decide, hv, hsp, ?_⟩
  rw [hv, hsp]
  decide

/-- Claim C1 (witness): the amended theorem applied to the divergence model. -/
theorem c1_witness :
    (viterbi cexSeq cexStates cexObs cexA cexB (stIdxOf cexStates)
        (stIdxOf cexObs)).toOption
      = (specViterbiEm cexStates cexObs cexA cexB cexSeq).map (List.map some) :=
  c1_viterbi_matches_spec_em cexStates cexObs cexA cexB cexSeq (by decide) (by decide)
    (by decide) (by decide)

end HMM
